import Mathlib

/-!
# Verification of `js-ipld-url-resolve`

A shallow embedding, in Lean 4, of the IPLD URL resolver and patcher
(`src/index.js`, second revision — the one the specification describes)
and its URL model (`src/ipldurl.js`).

Modelling conventions:

* JavaScript strings are modelled as `List Char` (`Str`); only ASCII
  contents are exercised by the development, and the percent-codec is
  modelled byte-per-character (faithful for code points below 128, which
  is all the theorems quantify over).
* The CID library (`multiformats`) is external to the repository, so a
  CID is modelled as a codec code plus a digest; its multibase string
  forms keep the real prefixes (`b` = base32, `k` = base36) and use an
  injective binary rendering over each alphabet.  `CID.toString()` on a
  CIDv1 uses base32 by default, which the model mirrors.
* Stateful code (`getNode` / `saveNode`) is explicit state passing via
  the monad `M`; JavaScript exceptions are an `Except` layer.  The state
  additionally carries a ghost log of `(replaced CID, encoding)` pairs,
  one per `saveNode` call, used to state the codec-preservation claim.
* `undefined` is a `Node` constructor; reading a property of
  `undefined`/`null` throws a `TypeError`, as in JavaScript.
-/

abbrev Str := List Char

/-! ## Percent encoding (JS `encodeURIComponent` / `decodeURIComponent`) -/

/-- Characters `encodeURIComponent` leaves unescaped:
ASCII alphanumerics and `- _ . ! ~ * ' ( )`. -/
def isUnreservedJS (c : Char) : Bool :=
  c.isAlpha || c.isDigit ||
    (['-', '_', '.', '!', '~', '*', Char.ofNat 39, '(', ')'].contains c)

/-- Upper-case hexadecimal digit, as produced by `encodeURIComponent`. -/
def hexDigitUpper (n : Nat) : Char :=
  if n < 10 then Char.ofNat (48 + n) else Char.ofNat (55 + n)

/-- Hexadecimal digit value; `decodeURIComponent` accepts both cases. -/
def hexVal (c : Char) : Option Nat :=
  if 48 ≤ c.toNat ∧ c.toNat ≤ 57 then some (c.toNat - 48)
  else if 65 ≤ c.toNat ∧ c.toNat ≤ 70 then some (c.toNat - 55)
  else if 97 ≤ c.toNat ∧ c.toNat ≤ 102 then some (c.toNat - 87)
  else none

def encodeChar (c : Char) : Str :=
  if isUnreservedJS c then [c]
  else ['%', hexDigitUpper (c.toNat / 16), hexDigitUpper (c.toNat % 16)]

/-- `encodeURIComponent`, modelled per character (exact for ASCII input;
multi-byte UTF-8 escaping is not modelled and every theorem below
restricts itself to ASCII strings). -/
def encodeURI (s : Str) : Str := s.flatMap encodeChar

/-- `decodeURIComponent`, modelled per byte.  On a malformed escape the
real function throws `URIError`; the model keeps the `%` verbatim — the
difference is never exercised, every decode below is applied to encoder
output. -/
def decodeURI : Str → Str
  | [] => []
  | '%' :: a :: b :: rest2 =>
    match hexVal a, hexVal b with
    | some x, some y => Char.ofNat (16 * x + y) :: decodeURI rest2
    | _, _ => '%' :: decodeURI (a :: b :: rest2)
  | c :: rest => c :: decodeURI rest

/-- `src/ipldurl.js` `encode`: `encodeURIComponent` followed by replacing
`;` with `%3B` (a no-op on encoder output, kept for faithfulness). -/
def replaceSemis (s : Str) : Str :=
  s.flatMap fun c => if c = ';' then ['%', '3', 'B'] else [c]

/-- `function encode (string)` of `src/ipldurl.js` (lines 248-251). -/
def encode (s : Str) : Str := replaceSemis (encodeURI s)

/-! ## List-of-char splitting (JS `String.prototype.split`) -/

/-- `s.split(sep)` for a single-character separator. -/
def splitOnChar (sep : Char) : Str → List Str
  | [] => [[]]
  | c :: rest =>
    if c = sep then [] :: splitOnChar sep rest
    else
      match splitOnChar sep rest with
      | h :: t => (c :: h) :: t
      | [] => [[c]]

/-- `parts.join(sep)` for a single-character separator. -/
def joinSep (sep : Char) : List Str → Str
  | [] => []
  | [x] => x
  | x :: xs => x ++ sep :: joinSep sep xs

/-- Whether a (JS) string ends with the single character `c`
(`s.endsWith(c)` for a one-character suffix). -/
def lastIs (c : Char) : Str → Bool
  | [] => false
  | [d] => d = c
  | _ :: d :: t => lastIs c (d :: t)

/-! ## CID model

The CID / multibase library is deliberately out of scope of the spec
("external collaborator"); what the resolver observes of it is: a codec
code, comparability, and the multibase string forms.  The payload
rendering is an injective binary writing over each multibase alphabet
(`a`/`b` both belong to the base32 alphabet, `0`/`1` to base36); the
real varint+multihash layout is not modelled. -/

structure Cid where
  code : Nat
  digest : Nat
  deriving DecidableEq, Repr

/-- Binary digits of `n`, least significant first (fuel-structured so
that it reduces definitionally). -/
def natBitsGo : Nat → Nat → List Bool
  | _, 0 => []
  | 0, _ + 1 => []
  | fuel + 1, n + 1 => (((n + 1) % 2) == 1) :: natBitsGo fuel ((n + 1) / 2)

def natBits (n : Nat) : List Bool := natBitsGo n n

def bitsVal : List Bool → Nat
  | [] => 0
  | b :: rest => (if b then 1 else 0) + 2 * bitsVal rest

/-- Base32 (lower-case) rendering of the payload: the codec code in
binary over `a`/`b`, the separator `c`, then the digest likewise (all
three characters belong to the base32 alphabet). -/
def payloadB32 (c : Cid) : Str :=
  ((natBits c.code).map fun b => if b then 'b' else 'a') ++
    'c' :: ((natBits c.digest).map fun b => if b then 'b' else 'a')

/-- Base36 rendering of the payload: binary over `0`/`1` with the
separator `2` (all in the base36 alphabet). -/
def payloadB36 (c : Cid) : Str :=
  ((natBits c.code).map fun b => if b then '1' else '0') ++
    '2' :: ((natBits c.digest).map fun b => if b then '1' else '0')

def bitsOfB32 : Str → Option (List Bool)
  | [] => some []
  | c :: rest =>
    if c = 'a' then (bitsOfB32 rest).map (false :: ·)
    else if c = 'b' then (bitsOfB32 rest).map (true :: ·)
    else none

def bitsOfB36 : Str → Option (List Bool)
  | [] => some []
  | c :: rest =>
    if c = '0' then (bitsOfB36 rest).map (false :: ·)
    else if c = '1' then (bitsOfB36 rest).map (true :: ·)
    else none

/-- `CID.toString()` on a CIDv1: base32, prefix `b`. -/
def cidToString (c : Cid) : Str := 'b' :: payloadB32 c

/-- The base36 string form of the same CID (prefix `k`). -/
def cidToString36 (c : Cid) : Str := 'k' :: payloadB36 c

/-- JavaScript errors: `Error` vs `TypeError` (the distinction the
claims rely on). -/
inductive JsErr where
  | error (msg : Str)
  | typeError (msg : Str)
  deriving DecidableEq, Repr

/-- `CID.parse(raw, base32.decoder.or(base36.decoder))` followed by
`.toV1()` (the model has no separate v0 form, and only v1 strings are
accepted by those decoders, so `toV1` is the identity here). -/
def parseCid (s : Str) : Except JsErr Cid :=
  match s with
  | 'b' :: rest =>
    (match splitOnChar 'c' rest with
     | [x, y] =>
       match bitsOfB32 x, bitsOfB32 y with
       | some bx, some by2 => .ok { code := bitsVal bx, digest := bitsVal by2 }
       | _, _ => .error (.error "Invalid CID".data)
     | _ => .error (.error "Invalid CID".data))
  | 'k' :: rest =>
    (match splitOnChar '2' rest with
     | [x, y] =>
       match bitsOfB36 x, bitsOfB36 y with
       | some bx, some by2 => .ok { code := bitsVal bx, digest := bitsVal by2 }
       | _, _ => .error (.error "Invalid CID".data)
     | _ => .error (.error "Invalid CID".data))
  | _ => .error (.error "Invalid CID".data)

/-! ## Parameters and segments (`src/ipldurl.js`) -/

/-- Ordered multimap of parameters (`IPLDURLParameters.#entries`). -/
abbrev Params := List (Str × Str)

/-- `IPLDURLParameters.get(key)`: first value for the key, else `null`
(modelled `none`). -/
def paramsGet (ps : Params) (key : Str) : Option Str :=
  match ps.find? (fun e => e.1 = key) with
  | some e => some e.2
  | none => none

/-- `IPLDURLParameters.toString()` (lines 186-192): each entry printed
as `;` + encoded key + `=` + encoded value. -/
def paramsToString (ps : Params) : Str :=
  ps.flatMap fun e => ';' :: (encode e.1 ++ '=' :: encode e.2)

/-- One raw `k=v` pair as parsed by the `IPLDURLParameters` constructor
from a string entry: `entry.split('=')`, keep the first two parts,
percent-decode each.  When there is no `=` the JS value slot is
`undefined`, and `decodeURIComponent(undefined)` yields the literal
string `"undefined"` — modelled verbatim. -/
def parsePairRaw (p : Str) : Str × Str :=
  match splitOnChar '=' p with
  | k :: v :: _ => (decodeURI k, decodeURI v)
  | [k] => (decodeURI k, "undefined".data)
  | [] => ([], "undefined".data)

/-- A URL path segment.  `params = none` models a plain `{ name }`
record whose `parameters` slot is JS `undefined` (as produced by
`patchPathToSegments`); segments parsed out of a URL always carry
`some` (an `IPLDURLParameters` object, possibly empty). -/
structure Segment where
  name : Str
  params : Option Params
  deriving DecidableEq, Repr

/-- `new IPLDURLSegment(raw)` (no explicit init): split the raw text on
`;`, percent-decode the head as the name, parse the remaining pairs. -/
def parseSegmentRaw (s : Str) : Segment :=
  match splitOnChar ';' s with
  | nm :: pairs => { name := decodeURI nm, params := some (pairs.map parsePairRaw) }
  | [] => { name := [], params := some [] }

/-- `IPLDURLSegment.toString()`: encoded name followed by the printed
parameters. -/
def segToString (name : Str) (ps : Params) : Str :=
  encode name ++ paramsToString ps

/-- `IPLDURLSegments.encode` on one entry: an `IPLDURLSegment` instance
prints itself; a plain `{ name }` record (undefined parameters) is first
re-parsed as raw text by the `IPLDURLSegment` constructor, then
printed. -/
def encodeSegment : Segment → Str
  | { name := nm, params := some ps } => segToString nm ps
  | { name := nm, params := none } =>
    let s := parseSegmentRaw nm
    segToString s.name (s.params.getD [])

/-- `IPLDURLSegments.encode` (lines 59-75). -/
def segmentsEncode (segs : List Segment) : Str :=
  if segs.isEmpty then [] else joinSep '/' (segs.map encodeSegment)

/-- `IPLDURLSegments.decode` (lines 77-86): empty pathname gives no
segments; otherwise split on `/`, parse each, and pop one trailing
segment when the pathname ends in `/`. -/
def segmentsDecode (pathname : Str) : List Segment :=
  if pathname = [] then []
  else
    let segs := (splitOnChar '/' pathname).map parseSegmentRaw
    if lastIs '/' pathname then segs.dropLast else segs

/-! ## The `IPLDURL` object

The underlying WHATWG `URL` state is modelled as the raw hostname and
pathname (the only parts the code reads or writes).  Query and fragment
parts are not modelled — no URL in the second-revision code paths under
verification carries one.  Dot-segment normalisation of the platform
`URL` class is likewise not modelled; theorems about round-tripping
exclude `.` and `..` segment names. -/

structure UrlState where
  hostname : Str
  pathname : Str
  deriving DecidableEq, Repr

def hrefOf (u : UrlState) : Str := "ipld://".data ++ u.hostname ++ u.pathname

/-- Split `rest` of `ipld://rest` into hostname and pathname at the
first `/`. -/
def splitHost : Str → Str × Str
  | [] => ([], [])
  | '/' :: rest => ([], '/' :: rest)
  | c :: rest =>
    let hp := splitHost rest
    (c :: hp.1, hp.2)

def ipldScheme : Str := "ipld://".data

/-- `new IPLDURL(url)`: URL parse plus the `ipld:` protocol check. -/
def mkUrl (s : Str) : Except JsErr UrlState :=
  if s.take 7 = ipldScheme then
    let hp := splitHost (s.drop 7)
    .ok { hostname := hp.1, pathname := hp.2 }
  else .error (.error "IPLD URLs must start with ipld://".data)

/-- The raw CID part of the hostname (`hostname.split(';')[0]`). -/
def hostCidRaw (h : Str) : Str := (splitOnChar ';' h).headD []

/-- The `parameters` getter: `hostname.split(';').slice(1)` handed to
the `IPLDURLParameters` constructor. -/
def hostParams (h : Str) : Params := (splitOnChar ';' h).tail.map parsePairRaw

/-- The `cid` getter: parse the raw CID part, convert to v1. -/
def urlCid (u : UrlState) : Except JsErr Cid := parseCid (hostCidRaw u.hostname)

/-- Assigning `url.pathname = p` (the platform setter roots the path). -/
def setPathname (u : UrlState) (p : Str) : UrlState :=
  { u with pathname :=
      match p with
      | [] => []
      | '/' :: _ => p
      | _ => '/' :: p }

/-- The `segments` setter (line 53-55). -/
def setSegments (u : UrlState) (segs : List Segment) : UrlState :=
  setPathname u (segmentsEncode segs)

/-- Plain `url.hostname = h` assignment (used by `patch` for `from`
URLs; note it drops any root parameters that were in the hostname). -/
def setHostnameRaw (u : UrlState) (h : Str) : UrlState := { u with hostname := h }

/-- The `cid` setter (lines 39-42): new CID string plus the re-encoded
current parameters. -/
def setCid (u : UrlState) (c : Cid) : UrlState :=
  { u with hostname := cidToString c ++ paramsToString (hostParams u.hostname) }

/-- The `parameters` setter (lines 32-37): re-canonicalised current CID
plus the new parameters (reads the `cid` getter, which can throw). -/
def setParameters (u : UrlState) (ps : Params) : Except JsErr UrlState := do
  let c ← urlCid u
  .ok { u with hostname := cidToString c ++ paramsToString ps }

/-- Everything `resolve` / `patch` destructure out of a `new
IPLDURL(url)`. -/
structure ParsedUrl where
  urlState : UrlState
  cid : Cid
  parameters : Params
  segments : List Segment
  resolveFinal : Bool
  deriving DecidableEq, Repr

def parseIPLDURL (s : Str) : Except JsErr ParsedUrl := do
  let u ← mkUrl s
  let c ← urlCid u
  .ok { urlState := u
        cid := c
        parameters := hostParams u.hostname
        segments := segmentsDecode (u.pathname.drop 1)
        resolveFinal := lastIs '/' u.pathname }

/-! ## IPLD nodes and JavaScript dynamic semantics

`Node` is the decoded in-memory form of a block, plus the two
JavaScript artefacts the resolver manipulates: `undef` (the result of a
missing property read) and `typed` (a schema view: the `converted`
object returned by `toTyped`, possibly behind the source's `Proxy`
whose trap is re-derived from the schema DMT at read time).  A `link`
carries the optional `ADD_LENS` tag the source bolts onto CID objects:
the DMT node and the expected type name. -/

inductive Node where
  | nul
  | undef
  | bool (b : Bool)
  | int (n : Int)
  | str (s : Str)
  | list (xs : List Node)
  | map (kvs : List (Str × Node))
  | link (cid : Cid) (lens : Option (Node × Str))
  | typed (conv : Node) (dmt : Node) (tyName : Str)

/-- A CID object in flight: the CID plus its optional `ADD_LENS` tag. -/
abbrev LinkRef := Cid × Option (Node × Str)

/-- JS truthiness (floats/NaN are not modelled). -/
def jsTruthy : Node → Bool
  | .nul => false
  | .undef => false
  | .bool b => b
  | .int n => n != 0
  | .str s => !s.isEmpty
  | _ => true

def jsIsObject : Node → Bool
  | .list _ | .map _ | .link _ _ | .typed _ _ _ => true
  | _ => false

/-- `Array.isArray` (it pierces proxies). -/
def jsIsArray : Node → Bool
  | .list _ => true
  | .typed conv _ _ => jsIsArray conv
  | _ => false

/-- `CID.asCID(value)`: the CID object (with its tag) or `null`. -/
def asCID : Node → Option LinkRef
  | .link c l => some (c, l)
  | _ => none

def assocFind (kvs : List (Str × Node)) (k : Str) : Option Node :=
  (kvs.find? fun e => e.1 = k).map (·.2)

/-- Canonical array-index reading of a property key (`arr["2"]`):
digits only, no leading zero.  Other array properties (`length`, …) are
not modelled — no code path under verification reads them. -/
def strToIndex (s : Str) : Option Nat :=
  if s.isEmpty then none
  else if !(s.all Char.isDigit) then none
  else if s.length > 1 && s.headD '0' = '0' then none
  else some (s.foldl (fun acc c => acc * 10 + (c.toNat - 48)) 0)

/-- Plain (non-proxy) property read `obj[key]`: `undefined` on a
missing key, `TypeError` on an `undefined`/`null` receiver.  On a
`typed` receiver this is the read of the underlying target object (the
proxy trap itself lives in `lookupNode`). -/
def jsGetPlain : Node → Str → Except JsErr Node
  | .undef, k => .error (.typeError ("Cannot read properties of undefined reading ".data ++ k))
  | .nul, k => .error (.typeError ("Cannot read properties of null reading ".data ++ k))
  | .map kvs, k => .ok ((assocFind kvs k).getD .undef)
  | .list xs, k =>
    .ok (match strToIndex k with
         | some i => (xs.get? i).getD .undef
         | none => .undef)
  | .str s, k =>
    .ok (match strToIndex k with
         | some i => match s.get? i with | some c => .str [c] | none => .undef
         | none => .undef)
  | .typed conv _ _, k => jsGetPlain conv k
  | _, _ => .ok (.undef)

/-- One step of optional chaining `a?.b`. -/
def optChain (n : Node) (k : Str) : Node :=
  match n with
  | .undef | .nul => .undef
  | v => match jsGetPlain v k with
         | .ok r => r
         | .error _ => (.undef)

/-- The `in` operator; throws on primitive receivers as in JS. -/
def jsHasProp : Node → Str → Except JsErr Bool
  | .map kvs, k => .ok (assocFind kvs k).isSome
  | .list xs, k =>
    .ok (match strToIndex k with
         | some i => i < xs.length
         | none => false)
  | .typed conv _ _, k => jsHasProp conv k
  | .link _ _, _ => .ok false
  | .nul, _ => .error (.typeError "Cannot use in operator on null".data)
  | .undef, _ => .error (.typeError "Cannot use in operator on undefined".data)
  | _, _ => .error (.typeError "Cannot use in operator on a primitive".data)

mutual

/-- JS string interpolation of a node (used only inside error
messages). -/
def jsToString : Node → Str
  | .nul => "null".data
  | .undef => "undefined".data
  | .bool b => if b then "true".data else "false".data
  | .int n => (Int.repr n).data
  | .str s => s
  | .list xs => jsToStringList xs
  | .map _ => "[object Object]".data
  | .typed _ _ _ => "[object Object]".data
  | .link c _ => cidToString c

def jsToStringList : List Node → Str
  | [] => []
  | [x] => jsToString x
  | x :: y :: xs => jsToString x ++ ',' :: jsToStringList (y :: xs)

end

/-- Strict equality `===`.  Objects compare by reference; distinct
object values in the model are never the same reference, so object
comparisons are `false` (the `test` op — the only user — is not
exercised by any claim). -/
def jsStrictEq : Node → Node → Bool
  | .nul, .nul => true
  | .undef, .undef => true
  | .bool a, .bool b => a == b
  | .int a, .int b => a == b
  | .str a, .str b => a == b
  | _, _ => false

/-- `parseInt(name, 10)`: optional spaces and sign, then a digit
prefix; `none` models `NaN`. -/
def jsParseInt (s : Str) : Option Int :=
  let t := s.dropWhile (· = ' ')
  let signAndRest : Bool × Str :=
    match t with
    | '-' :: r => (true, r)
    | '+' :: r => (false, r)
    | r => (false, r)
  let ds := signAndRest.2.takeWhile Char.isDigit
  if ds.isEmpty then none
  else
    let v : Int := Int.ofNat (ds.foldl (fun acc c => acc * 10 + (c.toNat - 48)) 0)
    some (if signAndRest.1 then -v else v)

/-- `ToInteger` + clamping of a `splice` start argument (`NaN` is 0,
negative counts from the end, overshoot clamps to the length). -/
def jsSpliceStart (len : Nat) (idx : Option Int) : Nat :=
  match idx with
  | none => 0
  | some v => if v < 0 then ((len : Int) + v).toNat else min v.toNat len

def spliceInsert (xs : List Node) (idx : Option Int) (v : Node) : List Node :=
  let n := jsSpliceStart xs.length idx
  xs.take n ++ v :: xs.drop n

def spliceRemove (xs : List Node) (idx : Option Int) : List Node :=
  let n := jsSpliceStart xs.length idx
  xs.take n ++ xs.drop (n + 1)

def spliceReplace (xs : List Node) (idx : Option Int) (v : Node) : List Node :=
  let n := jsSpliceStart xs.length idx
  xs.take n ++ v :: xs.drop (n + 1)

/-- Key/value pairs produced by object spread `{ ...node }`.  Spreading
a proxy in the source would read through its get trap and also copy the
`SUBSTRATE` symbol; neither is modelled — no claim patches over a
schema-typed node (noted in the development header). -/
def kvsOfSpread : Node → List (Str × Node)
  | .map kvs => kvs
  | .list xs => (xs.enum).map fun p => ((Nat.repr p.1).data, p.2)
  | .str s => (s.enum).map fun p => ((Nat.repr p.1).data, Node.str [p.2])
  | .typed conv _ _ => kvsOfSpread conv
  | _ => []

/-- `{ ...node, [name]: value }`: replace in place (insertion order of
an existing key is preserved) or append. -/
def mapSet : List (Str × Node) → Str → Node → List (Str × Node)
  | [], k, v => [(k, v)]
  | e :: rest, k, v => if e.1 = k then (k, v) :: rest else e :: mapSet rest k v

def mapDelete (kvs : List (Str × Node)) (k : Str) : List (Str × Node) :=
  kvs.filter fun e => e.1 ≠ k

/-! ## Store state and effect monad

The external block store (`getNode` / `saveNode`) is explicit state.
`saveLog` is a ghost trace: one `(replaced CID, encoding)` entry per
`saveNode` call, recording which CID the saved node replaces and which
encoding the caller passed — the material of the codec-preservation
claim. -/

structure St where
  store : List (Cid × Node)
  nextDigest : Nat
  saveLog : List (Cid × Str)

def M (α : Type) := St → Except JsErr α × St

instance : Monad M where
  pure a := fun s => (.ok a, s)
  bind x f := fun s =>
    match x s with
    | (.ok a, s2) => f a s2
    | (.error e, s2) => (.error e, s2)

def throwM {α : Type} (e : JsErr) : M α := fun s => (.error e, s)

def liftE {α : Type} : Except JsErr α → M α
  | .ok a => fun s => (.ok a, s)
  | .error e => fun s => (.error e, s)

/-- `getCidEncoding` (src/index.js lines 619-624), message verbatim
(including the `dag-cobor` typo). -/
def getCidEncoding (c : Cid) : Except JsErr Str :=
  if c.code = 0x71 then .ok "dag-cbor".data
  else if c.code = 0x0129 then .ok "dag-json".data
  else .error (.error "Unknown codec, only dag-cobor and dag-json supported for patch".data)

/-- Codec code of the CID the store returns for a given save encoding
(`ipfs.dag.put` with that `storeCodec`). -/
def codeOfEncoding (e : Str) : Nat :=
  if e = "dag-cbor".data then 0x71
  else if e = "dag-json".data then 0x0129
  else 0

/-- The raw store read; a miss is the store's own failure
(StoreError), propagated as-is. -/
def storeGet (c : Cid) : M Node := fun s =>
  match s.store.find? (fun e => e.1 = c) with
  | some e => (.ok e.2, s)
  | none => (.error (.error "Node not found in store".data), s)

/-- The raw store write: fresh digest, codec determined by the
encoding; appends to the ghost `saveLog` the CID this save replaces. -/
def saveNodeM (replaced : Cid) (n : Node) (encoding : Str) : M Cid := fun s =>
  let c : Cid := { code := codeOfEncoding encoding, digest := s.nextDigest }
  (.ok c,
   { store := s.store ++ [(c, n)]
     nextDigest := s.nextDigest + 1
     saveLog := s.saveLog ++ [(replaced, encoding)] })

/-- The system handle: the external schema engine (`@ipld/schema`
`createTyped(dmt, ty).toTyped` / `.toRepresentation`) and the ADL
registry.  ADL functions receive the node and the segment parameters
(the `system` argument is implicit — the model's functions already act
on the shared store through `M`). -/
structure Sys where
  toTyped : Node → Str → Node → Option Node
  toRepr : Node → Str → Node → Node
  adls : List (Str × (Node → Params → M Node))

/-- `makeTyped` (src/index.js lines 702-783), in source order:

1. `converted = typedSchema.toTyped(node)`;
2. line 706 assigns the `SUBSTRATE` method onto `converted` — when
   `converted` is `undefined` (schema rejected the node) or a
   primitive, that assignment throws a `TypeError` *before* the
   `if (!converted)` SchemaMismatch check on lines 711-715 ever runs
   (that check is dead code in this revision);
3. `typeDMT = schemaDMT.types[type]`, then the `struct` / `map` /
   `list` branches.  The `list` branch reads `typeDMT.map.valueType`
   (the apparent typo), which throws because `typeDMT.map` is
   `undefined` for a list type.

The struct/map proxies are represented by the uniform `Node.typed`
wrapper; their get traps are re-derived in `lookupNode` from the same
DMT accesses the closures capture.  A non-proxied `converted` return
behaves identically under that wrapper (no tagging applies). -/
def makeTyped (sys : Sys) (node dmt : Node) (ty : Str) : Except JsErr Node := do
  match sys.toTyped dmt ty node with
  | none =>
    .error (.typeError "Cannot set properties of undefined adding SUBSTRATE".data)
  | some conv =>
    if !jsIsObject conv then
      .error (.typeError "Cannot create property SUBSTRATE on a primitive value".data)
    else do
      let typesN ← jsGetPlain dmt "types".data
      let typeDMT ← jsGetPlain typesN ty
      let structV ← jsGetPlain typeDMT "struct".data
      if jsTruthy structV then
        .ok (.typed conv dmt ty)
      else do
        let mapV ← jsGetPlain typeDMT "map".data
        if jsTruthy mapV then do
          let vt0 ← jsGetPlain mapV "valueType".data
          let vt ← (match vt0 with
            | .str s => jsGetPlain typesN s
            | v => pure v)
          let _expected := optChain (optChain vt "link".data) "expectedType".data
          .ok (.typed conv dmt ty)
        else do
          let listV ← jsGetPlain typeDMT "list".data
          if jsTruthy listV then do
            let mapV2 ← jsGetPlain typeDMT "map".data
            let vt0 ← jsGetPlain mapV2 "valueType".data
            let vt ← (match vt0 with
              | .str s => jsGetPlain typesN s
              | v => pure v)
            let _expected := optChain (optChain vt "link".data) "expectedType".data
            .ok (.typed conv dmt ty)
          else
            .ok (.typed conv dmt ty)

/-- Non-empty string as a schema type name (`expectedType` is used both
in the truthiness test and, when a string, as the type to re-apply
across the link; non-string truthy values in a malformed DMT are not
modelled). -/
def expectedTypeStr : Node → Option Str
  | .str s => if s.isEmpty then none else some s
  | _ => none

/-- The map/list-branch valueType resolution:
`let valueType = …; if (typeof valueType === 'string') valueType =
schemaDMT.types[valueType]; valueType?.link?.expectedType`. -/
def vtExpected (typesN vt0 : Node) : Except JsErr (Option Str) := do
  let vt ← (match vt0 with
    | .str s => jsGetPlain typesN s
    | v => pure v)
  pure (expectedTypeStr (optChain (optChain vt "link".data) "expectedType".data))

/-- Full JS property read `data[name]`: the proxy get trap of a typed
view (src/index.js lines 720-780), else a plain read.

Struct trap: read the target, look up the field schema
(`typeDMT.struct.fields[property]`), and when the field is a link with
an `expectedType` and the value is a CID, return the CID tagged with
`ADD_LENS` (the DMT and expected type).  Map trap likewise via the
map's `valueType`.  A typed view over a list type is unreachable
(`makeTyped` throws first), so it falls through to the plain read. -/
def lookupNode (data : Node) (name : Str) : Except JsErr Node :=
  match data with
  | .typed conv dmt ty => do
    let typesN ← jsGetPlain dmt "types".data
    let typeDMT ← jsGetPlain typesN ty
    let structV ← jsGetPlain typeDMT "struct".data
    if jsTruthy structV then do
      let value ← jsGetPlain conv name
      let fieldsN ← jsGetPlain structV "fields".data
      let propSchema ← jsGetPlain fieldsN name
      let expected :=
        optChain (optChain (optChain propSchema "type".data) "link".data) "expectedType".data
      match expectedTypeStr expected with
      | none => pure value
      | some e =>
        pure (match value with
          | .link c _ => .link c (some (dmt, e))
          | v => v)
    else do
      let mapV ← jsGetPlain typeDMT "map".data
      if jsTruthy mapV then do
        let vt0 ← jsGetPlain mapV "valueType".data
        let eOpt ← vtExpected typesN vt0
        match eOpt with
        | some e => do
          let value ← jsGetPlain conv name
          pure (match value with
            | .link c _ => .link c (some (dmt, e))
            | v => v)
        | none => jsGetPlain conv name
      else jsGetPlain conv name
  | _ => jsGetPlain data name

/-! ## Lens pipeline and resolver (`src/index.js` lines 387-462) -/

/-- Join strings with a multi-character separator (for the ADL error
message `known = keys.join(', ')`). -/
def joinWith (sep : Str) : List Str → Str
  | [] => []
  | [x] => x
  | x :: y :: xs => x ++ sep ++ joinWith sep (y :: xs)

/-- JS truthiness of a parameter value
(`null`/empty string are falsy). -/
def truthyOptStr : Option Str → Bool
  | none => false
  | some s => !s.isEmpty

/-- `IPLDURLSystem.getNode` (lines 387-393): the raw store read, then
`cid[ADD_LENS](node)` when the CID object carries a lens tag. -/
def getNodeSys (sys : Sys) (ref : LinkRef) : M Node := do
  let node ← storeGet ref.1
  match ref.2 with
  | some l => liftE (makeTyped sys node l.1 l.2)
  | none => pure node

/-- `SchemaADL` (lines 690-700). -/
def SchemaADL (sys : Sys) (node : Node) (schema ty : Option Str) : M Node := do
  if !truthyOptStr schema || !truthyOptStr ty then
    throwM (.typeError "Must specify which type to use with the schema parameter".data)
  else do
    let scid ← liftE (parseCid (schema.getD []))
    let dmt ← getNodeSys sys (scid, none)
    liftE (makeTyped sys node dmt (ty.getD []))

/-- `IPLDURLSystem.#applyParameters` (lines 434-462).  `params = none`
is a JS-falsy `parameters` slot (early return); a present parameters
object is consulted for `schema` / `type` / `adl`, a CID value is
materialised through `getNode`, then the schema lens and the ADL are
applied in that order. -/
def applyParameters (sys : Sys) (origin : Node) (params : Option Params) : M Node :=
  match params with
  | none => pure origin
  | some ps => do
    let schema := paramsGet ps "schema".data
    let ty := paramsGet ps "type".data
    let adl := paramsGet ps "adl".data
    let data ← (match asCID origin with
      | some ref => getNodeSys sys ref
      | none => pure origin)
    let data2 ← if truthyOptStr schema then SchemaADL sys data schema ty else pure data
    if truthyOptStr adl then
      match sys.adls.find? (fun e => e.1 = adl.getD []) with
      | none =>
        throwM (.error ("Unknown ADL type ".data ++ adl.getD [] ++
          ". Must be one of ".data ++ joinWith ", ".data (sys.adls.map (·.1))))
      | some e => e.2 data2 ps
    else pure data2

/-- The final selection of `resolve` (lines 427-431):
`if (lastCID && (!resolveFinal && !resolveFinalCID)) return lastCID;
return data`. -/
def finalSelect (resolveFinal rfc : Bool) (lastCID : Option LinkRef) (data : Node) : Node :=
  match lastCID with
  | some ref => if !resolveFinal && !rfc then .link ref.1 ref.2 else data
  | none => data

/-- The segment loop of `resolve` (lines 415-425), carrying `data` and
`lastCID`. -/
def resolveSegs (sys : Sys) : List Segment → Node → Option LinkRef → M (Node × Option LinkRef)
  | [], data, lastCID => pure (data, lastCID)
  | seg :: rest, data, _ => do
    let d1 ← liftE (lookupNode data seg.name)
    match asCID d1 with
    | some ref => do
      let d2 ← getNodeSys sys ref
      let d3 ← applyParameters sys d2 seg.params
      resolveSegs sys rest d3 (some ref)
    | none => do
      let d3 ← applyParameters sys d1 seg.params
      resolveSegs sys rest d3 none

/-- `resolve` after URL destructuring — a function of exactly the
parsed fields it reads.  `rfcOpt = none` models a call without the
`resolveFinalCID` option, whose declared default (line 399) is `true`.
Note `if (initialParameters)` is always taken: the `parameters` getter
returns an (always truthy) `IPLDURLParameters` object. -/
def resolveParsed (sys : Sys) (cid : Cid) (parameters : Params) (segments : List Segment)
    (resolveFinal : Bool) (rfcOpt : Option Bool) : M Node := do
  let rfc := rfcOpt.getD true
  let data ← getNodeSys sys (cid, none)
  let data2 ← applyParameters sys data (some parameters)
  let r ← resolveSegs sys segments data2 (some (cid, none))
  pure (finalSelect resolveFinal rfc r.2 r.1)

/-- `IPLDURLSystem.resolve` (lines 399-432). -/
def resolve (sys : Sys) (url : Str) (rfcOpt : Option Bool) : M Node := do
  let p ← liftE (parseIPLDURL url)
  resolveParsed sys p.cid p.parameters p.segments p.resolveFinal rfcOpt

/-! ## Patch operations (`src/index.js` lines 627-688) -/

/-- One mutator `(node, name) => node`. -/
abbrev PatchFn := Node → Str → Except JsErr Node

/-- `makeEqual(value)` (lines 627-634). -/
def makeEqual (value : Node) : PatchFn := fun node name => do
  let currentValue ← lookupNode node name
  if jsStrictEq currentValue value then .ok node
  else
    .error (.error ("Test failed, ".data ++ name ++ " expected to be ".data ++
      jsToString value ++ ", instead got ".data ++ jsToString currentValue))

/-- `makeAdd(value)` (lines 636-652). -/
def makeAdd (value : Node) : PatchFn := fun node name =>
  if jsIsArray node then
    match node with
    | .list xs =>
      if name = "-".data then .ok (.list (xs ++ [value]))
      else .ok (.list (spliceInsert xs (jsParseInt name) value))
    | other => .ok (.map (mapSet (kvsOfSpread other) name value))
  else .ok (.map (mapSet (kvsOfSpread node) name value))

/-- `makeRemove()` (lines 654-667). -/
def makeRemove : PatchFn := fun node name => do
  let present ← jsHasProp node name
  if !present then
    .error (.error ("Cannot remove. Missing property ".data ++ name ++
      " in value ".data ++ jsToString node))
  else if jsIsArray node then
    match node with
    | .list xs => .ok (.list (spliceRemove xs (jsParseInt name)))
    | other => .ok (.map (mapDelete (kvsOfSpread other) name))
  else .ok (.map (mapDelete (kvsOfSpread node) name))

/-- `makeReplace(value)` (lines 668-680). -/
def makeReplace (value : Node) : PatchFn := fun node name => do
  let present ← jsHasProp node name
  if !present then
    .error (.error ("Cannot replace. Missing property ".data ++ name ++
      " in value ".data ++ jsToString node))
  else if jsIsArray node then
    match node with
    | .list xs => .ok (.list (spliceReplace xs (jsParseInt name) value))
    | other => .ok (.map (mapSet (kvsOfSpread other) name value))
  else .ok (.map (mapSet (kvsOfSpread node) name value))

/-- `patchPathToSegments` (lines 682-688): strip leading and trailing
`/`, split on `/`, wrap each name in a plain `{ name }` record (whose
`parameters` slot is `undefined`, hence `params := none`).
Fuel-structured on the length so it reduces definitionally. -/
def patchPathToSegmentsGo : Nat → Str → List Segment
  | 0, path => (splitOnChar '/' path).map fun nm => { name := nm, params := none }
  | fuel + 1, path =>
    match path with
    | '/' :: rest => patchPathToSegmentsGo fuel rest
    | p =>
      if lastIs '/' p then patchPathToSegmentsGo fuel p.dropLast
      else (splitOnChar '/' p).map fun nm => { name := nm, params := none }

def patchPathToSegments (path : Str) : List Segment :=
  patchPathToSegmentsGo path.length path

/-! ## The patcher (`src/index.js` lines 464-625) -/

/-- `if (x[SUBSTRATE]) x = x[SUBSTRATE]()`: strip a typed view to its
representation form (`toRepresentation`) before saving; everything else
passes through. -/
def substrateApply (sys : Sys) : Node → Node
  | .typed conv dmt ty => sys.toRepr dmt ty conv
  | other => other

/-- `copy[name] = final` on an array copy (always an index write here:
the `in` check just above guarantees `name` denotes a live index). -/
def listAssign (xs : List Node) (name : Str) (v : Node) : List Node :=
  match strToIndex name with
  | some i => xs.set i v
  | none => xs

/-- `IPLDURLSystem.#applyPatch` (lines 541-617).  Empty segment lists
crash on the very first destructuring (`segments[0]` is `undefined`) —
the `if (!segments.length)` check below it is dead code. -/
def applyPatch (sys : Sys) : Node → List Segment → PatchFn → M Node
  | _, [], _ =>
    throwM (.typeError "Cannot destructure property name of undefined".data)
  | node, [seg], operation =>
    (match asCID node with
     | some ref => do
       let data ← getNodeSys sys ref
       let data2 ← applyParameters sys data seg.params
       let modified ← liftE (operation data2 seg.name)
       let enc ← liftE (getCidEncoding ref.1)
       let toSave := substrateApply sys modified
       let newCID ← saveNodeM ref.1 toSave enc
       pure (.link newCID none)
     | none => liftE (operation node seg.name))
  | node, seg :: rest, operation =>
    (match asCID node with
     | some ref => do
       let data ← getNodeSys sys ref
       let present ← liftE (jsHasProp data seg.name)
       if !present then
         throwM (.error ("Path ".data ++ seg.name ++ " not found in node".data))
       else do
         let existing ← liftE (lookupNode data seg.name)
         let wrapped ← applyParameters sys existing seg.params
         let updated ← applyPatch sys wrapped rest operation
         let modified := Node.map (mapSet (kvsOfSpread data) seg.name updated)
         let enc ← liftE (getCidEncoding ref.1)
         let toSave := substrateApply sys modified
         let newCID ← saveNodeM ref.1 toSave enc
         pure (.link newCID none)
     | none => do
       let present ← liftE (jsHasProp node seg.name)
       if !present then
         throwM (.error ("Path ".data ++ seg.name ++ " not found in node".data))
       else do
         let existing ← liftE (lookupNode node seg.name)
         let wrapped ← applyParameters sys existing seg.params
         let updated ← applyPatch sys wrapped rest operation
         let final := substrateApply sys updated
         if jsIsArray node then
           match node with
           | .list xs => pure (.list (listAssign xs seg.name final))
           | other => pure (.map (mapSet (kvsOfSpread other) seg.name final))
         else pure (.map (mapSet (kvsOfSpread node) seg.name final)))

/-- One patch-set entry.  The `from` field is named `fromPath` (plain
renaming); absent fields are JS `undefined` / unused. -/
structure PatchOp where
  op : Str
  path : Str
  value : Node := .undef
  fromPath : Str := []

/-- `cid = await this.#applyPatch(cid, …)`: the result is assigned back
into the CID variable.  `#applyPatch` on a CID node with a non-empty
segment list always returns a CID, so the fallback is unreachable. -/
def expectCid : Node → M Cid
  | .link c _ => pure c
  | _ => throwM (.typeError "expected a CID".data)

/-- The body of `patch`'s `for` loop (lines 481-532): select the
operation (resolving `from` first and, for `move`, removing at `from`),
then fetch the current root, wrap it in the root parameters, apply the
patch along the joined segments, strip to substrate and re-save under
the up-front root `encoding`. -/
def patchLoop (sys : Sys) (parsed : ParsedUrl) (encoding : Str) :
    Cid → List PatchOp → M Cid
  | cid, [] => pure cid
  | cid, op :: rest => do
    let pathSegments := patchPathToSegments op.path
    let allSegments := parsed.segments ++ pathSegments
    let sel ←
      (if op.op = "add".data then pure (makeAdd op.value, cid)
       else if op.op = "remove".data then pure (makeRemove, cid)
       else if op.op = "replace".data then pure (makeReplace op.value, cid)
       else if op.op = "copy".data then do
         let fromSegments := patchPathToSegments op.fromPath
         let fromURL := setSegments (setHostnameRaw parsed.urlState (cidToString cid))
           (parsed.segments ++ fromSegments)
         let fromValue ← resolve sys (hrefOf fromURL) (some false)
         pure (makeAdd fromValue, cid)
       else if op.op = "move".data then do
         let fromSegments := patchPathToSegments op.fromPath
         let fullFromSegments := parsed.segments ++ fromSegments
         let fromURL := setSegments (setHostnameRaw parsed.urlState (cidToString cid))
           fullFromSegments
         let fromValue ← resolve sys (hrefOf fromURL) (some false)
         let removed ← applyPatch sys (.link cid none) fullFromSegments makeRemove
         let cid2 ← expectCid removed
         pure (makeAdd fromValue, cid2)
       else if op.op = "test".data then pure (makeEqual op.value, cid)
       else
         throwM (.error ("Invalid patch operation type ".data ++ op.op)))
    let node ← getNodeSys sys (sel.2, none)
    let wrapped ← applyParameters sys node (some parsed.parameters)
    let modified ← applyPatch sys wrapped allSegments sel.1
    let toSave := substrateApply sys modified
    let cid3 ← saveNodeM sel.2 toSave encoding
    patchLoop sys parsed encoding cid3 rest

/-- `IPLDURLSystem.patch` (lines 464-539).  The root `encoding` is
computed once up front (line 479), before the operation loop; the final
URL is the input with the authority CID replaced (the `cid` setter
re-serialises the CID in base32 and re-encodes the root
parameters). -/
def patch (sys : Sys) (url : Str) (patchset : List PatchOp) : M Str := do
  let parsed ← liftE (parseIPLDURL url)
  let encoding ← liftE (getCidEncoding parsed.cid)
  let cidF ← patchLoop sys parsed encoding parsed.cid patchset
  pure (hrefOf (setCid parsed.urlState cidF))

/-- The specification's reading of one `move` operation, §4.4: read the
value at `from` (without following a final link), then remove at
`from`, then add the captured value at `path` — assembled from the same
pieces, in that order. -/
def moveReadRemoveAdd (sys : Sys) (url : Str) (pathArg fromArg : Str) : M Str := do
  let parsed ← liftE (parseIPLDURL url)
  let encoding ← liftE (getCidEncoding parsed.cid)
  let fromSegments := patchPathToSegments fromArg
  let fullFromSegments := parsed.segments ++ fromSegments
  let fromURL := setSegments (setHostnameRaw parsed.urlState (cidToString parsed.cid))
    fullFromSegments
  let fromValue ← resolve sys (hrefOf fromURL) (some false)
  let removed ← applyPatch sys (.link parsed.cid none) fullFromSegments makeRemove
  let cid1 ← expectCid removed
  let node ← getNodeSys sys (cid1, none)
  let wrapped ← applyParameters sys node (some parsed.parameters)
  let modified ← applyPatch sys wrapped (parsed.segments ++ patchPathToSegments pathArg)
    (makeAdd fromValue)
  let cid2 ← saveNodeM cid1 (substrateApply sys modified) encoding
  pure (hrefOf (setCid parsed.urlState cid2))

/-! ## Helper lemmas: percent-codec round trip -/

def AsciiStr (s : Str) : Prop := ∀ c ∈ s, c.toNat < 128

instance (s : Str) : Decidable (AsciiStr s) := List.decidableBAll _ s

theorem hexVal_hexDigitUpper (n : Nat) (h : n ≤ 15) :
    hexVal (hexDigitUpper n) = some n := by
  interval_cases n <;> rfl

theorem hexDigitUpper_lt_ne (n : Nat) (h : n ≤ 15) :
    hexDigitUpper n ≠ ';' ∧ hexDigitUpper n ≠ '=' ∧ hexDigitUpper n ≠ '/' ∧
      hexDigitUpper n ≠ '%' := by
  interval_cases n <;> exact ⟨by decide, by decide, by decide, by decide⟩

theorem decodeURI_cons_ne (c : Char) (t : Str) (h : c ≠ '%') :
    decodeURI (c :: t) = c :: decodeURI t := by
  match t with
  | [] => simp [decodeURI, h]
  | [a] => simp [decodeURI, h]
  | a :: b :: t2 => simp [decodeURI, h]

theorem decodeURI_percent (a b : Char) (t : Str) (x y : Nat)
    (ha : hexVal a = some x) (hb : hexVal b = some y) :
    decodeURI ('%' :: a :: b :: t) = Char.ofNat (16 * x + y) :: decodeURI t := by
  simp [decodeURI, ha, hb]

theorem decodeURI_encodeChar (c : Char) (hc : c.toNat < 128) (t : Str) :
    decodeURI (encodeChar c ++ t) = c :: decodeURI t := by
  by_cases h : isUnreservedJS c
  · have hne : c ≠ '%' := by
      intro he
      rw [he] at h
      exact absurd h (by decide)
    simp [encodeChar, h, decodeURI_cons_ne c t hne]
  · have h1 : c.toNat / 16 ≤ 15 := by omega
    have h2 : c.toNat % 16 ≤ 15 := by omega
    simp only [encodeChar, h, Bool.false_eq_true, if_false, List.cons_append, List.nil_append]
    rw [decodeURI_percent _ _ _ _ _ (hexVal_hexDigitUpper _ h1) (hexVal_hexDigitUpper _ h2)]
    congr 1
    have : 16 * (c.toNat / 16) + c.toNat % 16 = c.toNat := by omega
    rw [this]
    exact Char.ofNat_toNat c

theorem decodeURI_encodeURI (s : Str) (h : AsciiStr s) :
    decodeURI (encodeURI s) = s := by
  induction s with
  | nil => rfl
  | cons c t ih =>
    have hc : c.toNat < 128 := h c (List.mem_cons_self _ _)
    have ht : AsciiStr t := fun d hd => h d (List.mem_cons_of_mem _ hd)
    have : encodeURI (c :: t) = encodeChar c ++ encodeURI t := by
      simp [encodeURI]
    rw [this, decodeURI_encodeChar c hc, ih ht]

/-- Every character of `encodeURI` output avoids the separators the URL
grammar splits on. -/
theorem encodeURI_sep_free (s : Str) (h : AsciiStr s) (d : Char) (hd : d ∈ encodeURI s) :
    d ≠ ';' ∧ d ≠ '=' ∧ d ≠ '/' := by
  simp only [encodeURI, List.mem_flatMap] at hd
  obtain ⟨c, hcs, hdc⟩ := hd
  have hc : c.toNat < 128 := h c hcs
  by_cases h : isUnreservedJS c
  · simp [encodeChar, h] at hdc
    subst hdc
    refine ⟨?_, ?_, ?_⟩ <;> intro he <;> rw [he] at h <;> exact absurd h (by decide)
  · simp [encodeChar, h] at hdc
    rcases hdc with he | he | he
    · subst he; exact ⟨by decide, by decide, by decide⟩
    · subst he
      obtain ⟨h1, h2, h3, _⟩ := hexDigitUpper_lt_ne (c.toNat / 16) (by omega)
      exact ⟨h1, h2, h3⟩
    · subst he
      obtain ⟨h1, h2, h3, _⟩ := hexDigitUpper_lt_ne (c.toNat % 16) (by omega)
      exact ⟨h1, h2, h3⟩

/-- `replaceSemis` is the identity on `;`-free strings. -/
theorem replaceSemis_of_free (s : Str) (h : ∀ d ∈ s, d ≠ ';') :
    replaceSemis s = s := by
  induction s with
  | nil => rfl
  | cons c t ih =>
    have hc : c ≠ ';' := h c (List.mem_cons_self _ _)
    have ht : ∀ d ∈ t, d ≠ ';' := fun d hd => h d (List.mem_cons_of_mem _ hd)
    have hstep : replaceSemis (c :: t) =
        (if c = ';' then ['%', '3', 'B'] else [c]) ++ replaceSemis t := rfl
    rw [hstep, if_neg hc, ih ht]
    rfl

/-- On ASCII input the source `encode` is exactly the percent encoder
(the `%3B` replacement finds nothing left to do). -/
theorem encode_eq_encodeURI (s : Str) (h : AsciiStr s) : encode s = encodeURI s :=
  replaceSemis_of_free _ fun d hd => (encodeURI_sep_free s h d hd).1

theorem encode_sep_free (s : Str) (h : AsciiStr s) (d : Char) (hd : d ∈ encode s) :
    d ≠ ';' ∧ d ≠ '=' ∧ d ≠ '/' := by
  rw [encode_eq_encodeURI s h] at hd
  exact encodeURI_sep_free s h d hd

theorem decodeURI_encode (s : Str) (h : AsciiStr s) : decodeURI (encode s) = s := by
  rw [encode_eq_encodeURI s h, decodeURI_encodeURI s h]

/-! ## Helper lemmas: splitting and joining -/

theorem splitOnChar_ne_nil (sep : Char) (l : Str) : splitOnChar sep l ≠ [] := by
  induction l with
  | nil => simp [splitOnChar]
  | cons c t ih =>
    by_cases h : c = sep
    · simp [splitOnChar, h]
    · simp only [splitOnChar, h, if_false]
      match hm : splitOnChar sep t with
      | [] => exact absurd hm ih
      | x :: xs => simp

theorem splitOnChar_of_free (sep : Char) (l : Str) (h : ∀ d ∈ l, d ≠ sep) :
    splitOnChar sep l = [l] := by
  induction l with
  | nil => rfl
  | cons c t ih =>
    have hc : c ≠ sep := h c (List.mem_cons_self _ _)
    have ht := ih fun d hd => h d (List.mem_cons_of_mem _ hd)
    simp [splitOnChar, hc, ht]

theorem splitOnChar_append_sep (sep : Char) (a b : Str) (h : ∀ d ∈ a, d ≠ sep) :
    splitOnChar sep (a ++ sep :: b) = a :: splitOnChar sep b := by
  induction a with
  | nil => simp [splitOnChar]
  | cons c t ih =>
    have hc : c ≠ sep := h c (List.mem_cons_self _ _)
    have ht := ih fun d hd => h d (List.mem_cons_of_mem _ hd)
    simp only [List.cons_append, splitOnChar, hc, if_false]
    rw [show List.append t (sep :: b) = t ++ sep :: b from rfl, ht]

theorem splitOnChar_concat_sep (sep : Char) (l : Str) :
    splitOnChar sep (l ++ [sep]) = splitOnChar sep l ++ [[]] := by
  induction l with
  | nil => simp [splitOnChar]
  | cons c t ih =>
    by_cases h : c = sep
    · simp [splitOnChar, h, ih]
    · obtain ⟨x, xs, hm⟩ : ∃ x xs, splitOnChar sep t = x :: xs := by
        cases hsp : splitOnChar sep t with
        | nil => exact absurd hsp (splitOnChar_ne_nil sep t)
        | cons x xs => exact ⟨x, xs, rfl⟩
      simp only [List.cons_append, splitOnChar, h, if_false]
      rw [show List.append t [sep] = t ++ [sep] from rfl, ih, hm]
      simp

theorem splitOnChar_joinSep (sep : Char) (xs : List Str) (hne : xs ≠ [])
    (h : ∀ x ∈ xs, ∀ d ∈ x, d ≠ sep) :
    splitOnChar sep (joinSep sep xs) = xs := by
  induction xs with
  | nil => exact absurd rfl hne
  | cons x t ih =>
    match t with
    | [] => exact splitOnChar_of_free sep x (h x (List.mem_cons_self _ _))
    | y :: t2 =>
      have hx := h x (List.mem_cons_self _ _)
      have ht : ∀ z ∈ y :: t2, ∀ d ∈ z, d ≠ sep :=
        fun z hz => h z (List.mem_cons_of_mem _ hz)
      have : joinSep sep (x :: y :: t2) = x ++ sep :: joinSep sep (y :: t2) := rfl
      rw [this, splitOnChar_append_sep sep _ _ hx, ih (by simp) ht]

theorem bitsVal_natBitsGo (fuel n : Nat) (h : n ≤ fuel) :
    bitsVal (natBitsGo fuel n) = n := by
  induction fuel generalizing n with
  | zero =>
    match n, h with
    | 0, _ => rfl
  | succ f ih =>
    match n with
    | 0 => rfl
    | m + 1 =>
      have hle : (m + 1) / 2 ≤ f := by omega
      simp only [natBitsGo, bitsVal, ih _ hle]
      rcases Nat.even_or_odd (m + 1) with he | ho
      · have : (m + 1) % 2 = 0 := Nat.even_iff.mp he
        simp [this]
        omega
      · have : (m + 1) % 2 = 1 := Nat.odd_iff.mp ho
        simp [this]
        omega

theorem bitsVal_natBits (n : Nat) : bitsVal (natBits n) = n :=
  bitsVal_natBitsGo n n (Nat.le_refl n)

/-! ## Helper lemmas: CID string round trip -/

theorem bitsOfB32_map (bits : List Bool) :
    bitsOfB32 (bits.map fun b => if b then 'b' else 'a') = some bits := by
  induction bits with
  | nil => rfl
  | cons b t ih =>
    cases b <;> simp [bitsOfB32, ih]

theorem mem_bitsB32_map (bits : List Bool) (d : Char)
    (hd : d ∈ bits.map fun b => if b then 'b' else 'a') : d = 'a' ∨ d = 'b' := by
  simp only [List.mem_map] at hd
  obtain ⟨b, _, hb⟩ := hd
  cases b
  · exact Or.inl hb.symm
  · exact Or.inr hb.symm

theorem parseCid_cidToString (c : Cid) : parseCid (cidToString c) = .ok c := by
  have hsplit : splitOnChar 'c' (payloadB32 c) =
      [(natBits c.code).map fun b => if b then 'b' else 'a',
       (natBits c.digest).map fun b => if b then 'b' else 'a'] := by
    rw [payloadB32, splitOnChar_append_sep 'c' _ _ (fun d hd => by
      rcases mem_bitsB32_map _ d hd with h | h <;> simp [h])]
    rw [splitOnChar_of_free 'c' _ (fun d hd => by
      rcases mem_bitsB32_map _ d hd with h | h <;> simp [h])]
  show parseCid ('b' :: payloadB32 c) = .ok c
  simp only [parseCid, hsplit, bitsOfB32_map]
  congr 1
  cases c with
  | mk code digest => simp [bitsVal_natBits]

theorem cidToString_mem (c : Cid) (d : Char) (hd : d ∈ cidToString c) :
    d = 'b' ∨ d = 'a' ∨ d = 'c' := by
  rw [cidToString] at hd
  rcases List.mem_cons.mp hd with h | hd
  · exact Or.inl h
  · simp only [payloadB32] at hd
    rcases List.mem_append.mp hd with h | h
    · rcases mem_bitsB32_map _ d h with h2 | h2
      · exact Or.inr (Or.inl h2)
      · exact Or.inl h2
    · rcases List.mem_cons.mp h with h2 | h2
      · exact Or.inr (Or.inr h2)
      · rcases mem_bitsB32_map _ d h2 with h3 | h3
        · exact Or.inr (Or.inl h3)
        · exact Or.inl h3

theorem cidToString_sep_free (c : Cid) (d : Char) (hd : d ∈ cidToString c) :
    d ≠ ';' ∧ d ≠ '/' := by
  rcases cidToString_mem c d hd with h | h | h <;> simp [h]

/-! ## Helper lemmas: parameter and segment round trips -/

def AsciiParams (ps : Params) : Prop :=
  ∀ e ∈ ps, AsciiStr e.1 ∧ AsciiStr e.2

instance (ps : Params) : Decidable (AsciiParams ps) := List.decidableBAll _ ps

/-- One printed parameter pair. -/
def pairStr (e : Str × Str) : Str := encode e.1 ++ '=' :: encode e.2

theorem paramsToString_eq (ps : Params) :
    paramsToString ps = ps.flatMap fun e => ';' :: pairStr e := rfl

theorem pairStr_sep_free (e : Str × Str) (h1 : AsciiStr e.1) (h2 : AsciiStr e.2)
    (d : Char) (hd : d ∈ pairStr e) : d ≠ ';' ∧ d ≠ '/' := by
  rw [pairStr] at hd
  rcases List.mem_append.mp hd with h | h
  · obtain ⟨a, _, b⟩ := encode_sep_free _ h1 d h
    exact ⟨a, b⟩
  · rcases List.mem_cons.mp h with h3 | h3
    · subst h3
      exact ⟨by decide, by decide⟩
    · obtain ⟨a, _, b⟩ := encode_sep_free _ h2 d h3
      exact ⟨a, b⟩

theorem parsePairRaw_pairStr (e : Str × Str) (h1 : AsciiStr e.1) (h2 : AsciiStr e.2) :
    parsePairRaw (pairStr e) = e := by
  rw [parsePairRaw, pairStr,
    splitOnChar_append_sep '=' _ _ (fun d hd => (encode_sep_free _ h1 d hd).2.1),
    splitOnChar_of_free '=' _ (fun d hd => (encode_sep_free _ h2 d hd).2.1)]
  simp [decodeURI_encode _ h1, decodeURI_encode _ h2]

/-- Splitting `prefix ++ paramsToString ps` on `;`: the prefix, then
one chunk per parameter. -/
theorem splitOnChar_params (a : Str) (ps : Params)
    (ha : ∀ d ∈ a, d ≠ ';') (hps : AsciiParams ps) :
    splitOnChar ';' (a ++ paramsToString ps) = a :: ps.map pairStr := by
  induction ps generalizing a with
  | nil =>
    show splitOnChar ';' (a ++ []) = [a]
    rw [List.append_nil]
    exact splitOnChar_of_free ';' a ha
  | cons e t ih =>
    have he := hps e (List.mem_cons_self _ _)
    have ht : AsciiParams t := fun z hz => hps z (List.mem_cons_of_mem _ hz)
    have hstep : a ++ paramsToString (e :: t) = a ++ ';' :: (pairStr e ++ paramsToString t) := by
      simp [paramsToString_eq, pairStr]
    rw [hstep, splitOnChar_append_sep ';' _ _ ha,
      ih (pairStr e) (fun d hd => (pairStr_sep_free e he.1 he.2 d hd).1) ht]
    rfl

theorem hostParams_canonical (c : Cid) (ps : Params) (hps : AsciiParams ps) :
    hostParams (cidToString c ++ paramsToString ps) = ps := by
  rw [hostParams, splitOnChar_params (cidToString c) ps
    (fun d hd => (cidToString_sep_free c d hd).1) hps]
  show (ps.map pairStr).map parsePairRaw = ps
  rw [List.map_map]
  have : ∀ e ∈ ps, (parsePairRaw ∘ pairStr) e = id e := by
    intro e he
    have h := hps e he
    simp [parsePairRaw_pairStr e h.1 h.2]
  rw [List.map_congr_left this, List.map_id]

theorem hostCidRaw_canonical (c : Cid) (ps : Params) :
    hostCidRaw (cidToString c ++ paramsToString ps) = cidToString c := by
  rw [hostCidRaw]
  cases ps with
  | nil =>
    show (splitOnChar ';' (cidToString c ++ [])).headD [] = cidToString c
    rw [List.append_nil,
      splitOnChar_of_free ';' _ (fun d hd => (cidToString_sep_free c d hd).1)]
    rfl
  | cons e t =>
    have hstep : cidToString c ++ paramsToString (e :: t) =
        cidToString c ++ ';' :: (pairStr e ++ paramsToString t) := by
      simp [paramsToString_eq, pairStr]
    rw [hstep, splitOnChar_append_sep ';' _ _
      (fun d hd => (cidToString_sep_free c d hd).1)]
    rfl

/-! ## Helper lemmas: segment round trips -/

theorem segToString_sep_free (nm : Str) (ps : Params)
    (hn : AsciiStr nm) (hps : AsciiParams ps) (d : Char) (hd : d ∈ segToString nm ps) :
    d ≠ '/' := by
  rw [segToString] at hd
  rcases List.mem_append.mp hd with h | h
  · exact (encode_sep_free _ hn d h).2.2
  · rw [paramsToString_eq] at h
    simp only [List.mem_flatMap] at h
    obtain ⟨e, he, hde⟩ := h
    rcases List.mem_cons.mp hde with h2 | h2
    · subst h2; decide
    · have := hps e he
      exact (pairStr_sep_free e this.1 this.2 d h2).2

theorem parseSegmentRaw_segToString (nm : Str) (ps : Params)
    (hn : AsciiStr nm) (hps : AsciiParams ps) :
    parseSegmentRaw (segToString nm ps) = { name := nm, params := some ps } := by
  rw [parseSegmentRaw, segToString,
    splitOnChar_params (encode nm) ps (fun d hd => (encode_sep_free _ hn d hd).1) hps]
  simp only [decodeURI_encode _ hn]
  congr 2
  rw [List.map_map]
  have : ∀ e ∈ ps, (parsePairRaw ∘ pairStr) e = id e := by
    intro e he
    have h := hps e he
    simp [parsePairRaw_pairStr e h.1 h.2]
  rw [List.map_congr_left this, List.map_id]

theorem encode_ne_nil (nm : Str) (h : nm ≠ []) : encode nm ≠ [] := by
  match nm, h with
  | c :: t, _ =>
    show replaceSemis (encodeChar c ++ encodeURI t) ≠ []
    by_cases hu : isUnreservedJS c
    · by_cases hs : c = ';'
      · subst hs; exact absurd hu (by decide)
      · simp [encodeChar, hu, replaceSemis, hs]
    · simp [encodeChar, hu, replaceSemis]

theorem lastIs_false_of_free (c : Char) (s : Str) (h : ∀ d ∈ s, d ≠ c) :
    lastIs c s = false := by
  induction s with
  | nil => rfl
  | cons x t ih =>
    match t with
    | [] =>
      have := h x (List.mem_cons_self _ _)
      simp [lastIs, this]
    | y :: t2 =>
      show lastIs c (y :: t2) = false
      exact ih fun d hd => h d (List.mem_cons_of_mem _ hd)

theorem lastIs_append_right (c : Char) (a b : Str) (h : b ≠ []) :
    lastIs c (a ++ b) = lastIs c b := by
  induction a with
  | nil => rfl
  | cons x t ih =>
    obtain ⟨e, rest, hm⟩ : ∃ e rest, t ++ b = e :: rest := by
      cases hm : t ++ b with
      | nil => simp at hm; exact absurd hm.2 h
      | cons e rest => exact ⟨e, rest, rfl⟩
    show lastIs c (x :: (t ++ b)) = lastIs c b
    rw [hm]
    show lastIs c (e :: rest) = lastIs c b
    rw [← hm, ih]

theorem joinSep_cons_eq (sep : Char) (x : Str) (t : List Str) :
    joinSep sep (x :: t) = x ++ (match t with
      | [] => []
      | _ :: _ => sep :: joinSep sep t) := by
  match t with
  | [] => simp [joinSep]
  | y :: t2 => rfl

theorem joinSep_ne_nil (sep : Char) (x : Str) (t : List Str) (hx : x ≠ []) :
    joinSep sep (x :: t) ≠ [] := by
  rw [joinSep_cons_eq]
  match t with
  | [] => simpa using hx
  | y :: t2 => simp

theorem lastIs_joinSep_false (sep : Char) (xs : List Str)
    (h : ∀ x ∈ xs, x ≠ [] ∧ ∀ d ∈ x, d ≠ sep) :
    lastIs sep (joinSep sep xs) = false := by
  induction xs with
  | nil => rfl
  | cons x t ih =>
    match t with
    | [] =>
      exact lastIs_false_of_free sep x (h x (List.mem_cons_self _ _)).2
    | y :: t2 =>
      have ht : ∀ z ∈ y :: t2, z ≠ [] ∧ ∀ d ∈ z, d ≠ sep :=
        fun z hz => h z (List.mem_cons_of_mem _ hz)
      have hy : y ≠ [] := (ht y (List.mem_cons_self _ _)).1
      have hjoin : joinSep sep (y :: t2) ≠ [] := joinSep_ne_nil sep y t2 hy
      rw [joinSep_cons_eq]
      show lastIs sep (x ++ sep :: joinSep sep (y :: t2)) = false
      rw [lastIs_append_right sep x _ (by simp)]
      obtain ⟨e, rest, hm⟩ : ∃ e rest, joinSep sep (y :: t2) = e :: rest := by
        cases hm : joinSep sep (y :: t2) with
        | nil => exact absurd hm hjoin
        | cons e rest => exact ⟨e, rest, rfl⟩
      rw [hm]
      show lastIs sep (e :: rest) = false
      rw [← hm]
      exact ih ht

/-- A well-formed segment for the round-trip theorems: ASCII non-empty
name that is not a dot segment (the platform URL parser would normalise
`.` / `..` away, which the model does not implement), and present ASCII
parameters (as the `segments` getter always produces). -/
def GoodSegment (s : Segment) : Prop :=
  AsciiStr s.name ∧ s.name ≠ [] ∧ s.name ≠ ".".data ∧ s.name ≠ "..".data ∧
    ∃ ps, s.params = some ps ∧ AsciiParams ps

theorem encodeSegment_good (s : Segment) (h : GoodSegment s) :
    encodeSegment s = segToString s.name ((s.params).getD []) ∧
      encodeSegment s ≠ [] ∧ ∀ d ∈ encodeSegment s, d ≠ '/' := by
  obtain ⟨ha, hne, _, _, ps, hps, haps⟩ := h
  cases s with
  | mk nm prm =>
    simp only at hps ha hne haps
    subst hps
    refine ⟨rfl, ?_, ?_⟩
    · show segToString nm ps ≠ []
      rw [segToString]
      intro hcon
      exact encode_ne_nil nm hne (List.append_eq_nil.mp hcon).1
    · exact fun d hd => segToString_sep_free nm ps ha haps d hd

theorem parseSegmentRaw_encodeSegment (s : Segment) (h : GoodSegment s) :
    parseSegmentRaw (encodeSegment s) = s := by
  obtain ⟨ha, hne, _, _, ps, hps, haps⟩ := h
  cases s with
  | mk nm prm =>
    simp only at hps ha haps
    subst hps
    show parseSegmentRaw (encodeSegment { name := nm, params := some ps }) = _
    rw [show encodeSegment { name := nm, params := some ps } = segToString nm ps from rfl]
    exact parseSegmentRaw_segToString nm ps ha haps

/-- Decoding the encoded segment list recovers it (for well-formed
segments). -/
theorem segmentsDecode_encode (segs : List Segment) (h : ∀ s ∈ segs, GoodSegment s) :
    segmentsDecode (segmentsEncode segs) = segs := by
  match segs with
  | [] => rfl
  | s0 :: rest =>
    have hmap : ∀ x ∈ (s0 :: rest).map encodeSegment, x ≠ [] ∧ ∀ d ∈ x, d ≠ '/' := by
      intro x hx
      rw [List.mem_map] at hx
      obtain ⟨s, hs, hxs⟩ := hx
      obtain ⟨_, h2, h3⟩ := encodeSegment_good s (h s hs)
      subst hxs
      exact ⟨h2, h3⟩
    have henc : segmentsEncode (s0 :: rest) = joinSep '/' ((s0 :: rest).map encodeSegment) := by
      rw [segmentsEncode]
      rfl
    have hne : segmentsEncode (s0 :: rest) ≠ [] := by
      rw [henc]
      show joinSep '/' (encodeSegment s0 :: rest.map encodeSegment) ≠ []
      exact joinSep_ne_nil '/' _ _
        (hmap (encodeSegment s0) (by simp)).1
    have hlast : lastIs '/' (segmentsEncode (s0 :: rest)) = false := by
      rw [henc]
      exact lastIs_joinSep_false '/' _ hmap
    rw [segmentsDecode, if_neg hne, hlast]
    simp only [Bool.false_eq_true, if_false]
    rw [henc, splitOnChar_joinSep '/' _ (by simp) (fun x hx => (hmap x hx).2)]
    rw [List.map_map]
    have : ∀ s ∈ s0 :: rest, (parseSegmentRaw ∘ encodeSegment) s = id s := by
      intro s hs
      simp [parseSegmentRaw_encodeSegment s (h s hs)]
    rw [List.map_congr_left this, List.map_id]

/-! ## Helper lemmas: URL state round trips -/

theorem splitHost_cons_ne (c : Char) (r : Str) (h : c ≠ '/') :
    splitHost (c :: r) = ((c :: (splitHost r).1), (splitHost r).2) := by
  simp [splitHost, h]

theorem splitHost_concat (h p : Str) (hh : ∀ d ∈ h, d ≠ '/')
    (hp : p = [] ∨ ∃ r, p = '/' :: r) : splitHost (h ++ p) = (h, p) := by
  induction h with
  | nil =>
    rcases hp with hp | ⟨r, hp⟩
    · subst hp; rfl
    · subst hp; rfl
  | cons c t ih =>
    have hc : c ≠ '/' := hh c (List.mem_cons_self _ _)
    have ht := ih fun d hd => hh d (List.mem_cons_of_mem _ hd)
    show splitHost (c :: (t ++ p)) = (c :: t, p)
    rw [splitHost_cons_ne c _ hc, ht]

theorem splitHost_recombine (r : Str) : (splitHost r).1 ++ (splitHost r).2 = r := by
  induction r with
  | nil => rfl
  | cons c t ih =>
    by_cases h : c = '/'
    · subst h; rfl
    · rw [splitHost_cons_ne c t h]
      show c :: ((splitHost t).1 ++ (splitHost t).2) = c :: t
      rw [ih]

theorem mkUrl_ipld (rest : Str) :
    mkUrl ("ipld://".data ++ rest) =
      .ok { hostname := (splitHost rest).1, pathname := (splitHost rest).2 } := by
  have htake : ("ipld://".data ++ rest).take 7 = ipldScheme := by
    show (ipldScheme ++ rest).take ipldScheme.length = ipldScheme
    exact List.take_left _ _
  have hdrop : ("ipld://".data ++ rest).drop 7 = rest := by
    show (ipldScheme ++ rest).drop ipldScheme.length = rest
    exact List.drop_left _ _
  rw [mkUrl, if_pos htake, hdrop]

theorem hrefOf_mkUrl (s : Str) (u : UrlState) (h : mkUrl s = .ok u) : hrefOf u = s := by
  rw [mkUrl] at h
  by_cases hp : s.take 7 = ipldScheme
  · rw [if_pos hp] at h
    have hu : u = { hostname := (splitHost (s.drop 7)).1, pathname := (splitHost (s.drop 7)).2 } :=
      (Except.ok.inj h).symm
    subst hu
    show "ipld://".data ++ ((splitHost (s.drop 7)).1 ++ (splitHost (s.drop 7)).2) = s
    rw [splitHost_recombine]
    show ipldScheme ++ s.drop 7 = s
    rw [← hp]
    exact List.take_append_drop 7 s
  · rw [if_neg hp] at h
    exact absurd h (by simp)

theorem paramsToString_sep_free (ps : Params) (h : AsciiParams ps) (d : Char)
    (hd : d ∈ paramsToString ps) : d ≠ '/' := by
  rw [paramsToString_eq] at hd
  simp only [List.mem_flatMap] at hd
  obtain ⟨e, he, hde⟩ := hd
  rcases List.mem_cons.mp hde with h2 | h2
  · subst h2; decide
  · have := h e he
    exact (pairStr_sep_free e this.1 this.2 d h2).2

theorem exceptBind_ok {e a b : Type} (x : a) (f : a → Except e b) :
    (Except.ok x >>= f) = f x := rfl

theorem exceptBind_error {e a b : Type} (err : e) (f : a → Except e b) :
    ((Except.error err : Except e a) >>= f) = .error err := rfl

theorem hostname_slash_free (c : Cid) (ps : Params) (hps : AsciiParams ps) (d : Char)
    (hd : d ∈ cidToString c ++ paramsToString ps) : d ≠ '/' := by
  rcases List.mem_append.mp hd with h | h
  · exact (cidToString_sep_free c d h).2
  · exact paramsToString_sep_free ps hps d h

/-- Parsing a URL whose hostname is in canonical form. -/
theorem parseIPLDURL_canonical (c : Cid) (ps : Params) (pathname : Str)
    (hps : AsciiParams ps) (hpath : pathname = [] ∨ ∃ r, pathname = '/' :: r) :
    parseIPLDURL ("ipld://".data ++ ((cidToString c ++ paramsToString ps) ++ pathname)) =
      .ok { urlState := { hostname := cidToString c ++ paramsToString ps, pathname := pathname }
            cid := c
            parameters := ps
            segments := segmentsDecode (pathname.drop 1)
            resolveFinal := lastIs '/' pathname } := by
  have hsplit := splitHost_concat (cidToString c ++ paramsToString ps) pathname
    (hostname_slash_free c ps hps) hpath
  rw [parseIPLDURL, mkUrl_ipld, hsplit]
  simp only [exceptBind_ok, urlCid, hostCidRaw_canonical c ps, parseCid_cidToString,
    hostParams_canonical c ps hps]

theorem setPathname_cons_ne (u : UrlState) (e : Char) (t : Str) (h : e ≠ '/') :
    setPathname u (e :: t) = { u with pathname := '/' :: e :: t } := by
  simp [setPathname, h]

/-- A URL value built through the model's setters, as a user would:
`new IPLDURL` on the plain CID URL, then the `parameters` setter, then
the `segments` setter. -/
def mkViaSetters (c : Cid) (ps : Params) (segs : List Segment) : Except JsErr UrlState := do
  let u ← mkUrl ("ipld://".data ++ cidToString c)
  let u2 ← setParameters u ps
  .ok (setSegments u2 segs)

theorem mkViaSetters_eq (c : Cid) (ps : Params) (segs : List Segment) :
    mkViaSetters c ps segs =
      .ok (setSegments { hostname := cidToString c ++ paramsToString ps, pathname := [] } segs) := by
  have h1 : splitHost (cidToString c) = (cidToString c, []) := by
    have := splitHost_concat (cidToString c) [] (fun d hd => (cidToString_sep_free c d hd).2)
      (Or.inl rfl)
    rwa [List.append_nil] at this
  have h2 : hostCidRaw (cidToString c) = cidToString c := by
    have := hostCidRaw_canonical c []
    rwa [show paramsToString [] = [] from rfl, List.append_nil] at this
  rw [mkViaSetters, mkUrl_ipld, h1]
  simp only [exceptBind_ok, setParameters, urlCid, h2, parseCid_cidToString]

theorem segmentsEncode_head (s0 : Segment) (rest : List Segment)
    (h : ∀ s ∈ s0 :: rest, GoodSegment s) :
    ∃ e t, segmentsEncode (s0 :: rest) = e :: t ∧ e ≠ '/' := by
  obtain ⟨_, hne0, hfree0⟩ := encodeSegment_good s0 (h s0 (List.mem_cons_self _ _))
  obtain ⟨e, t0, he⟩ : ∃ e t0, encodeSegment s0 = e :: t0 := by
    cases hs : encodeSegment s0 with
    | nil => exact absurd hs hne0
    | cons e t0 => exact ⟨e, t0, rfl⟩
  refine ⟨e, t0 ++ (match rest.map encodeSegment with
    | [] => []
    | _ :: _ => '/' :: joinSep '/' (rest.map encodeSegment)), ?_, ?_⟩
  · have henc : segmentsEncode (s0 :: rest) =
        encodeSegment s0 ++ (match rest.map encodeSegment with
          | [] => []
          | _ :: _ => '/' :: joinSep '/' (rest.map encodeSegment)) := by
      rw [segmentsEncode]
      show joinSep '/' (encodeSegment s0 :: rest.map encodeSegment) = _
      exact joinSep_cons_eq '/' _ _
    rw [henc, he]
    rfl
  · exact hfree0 e (by rw [he]; exact List.mem_cons_self _ _)

/-- The canonical URL state with the given CID, parameters and raw
pathname. -/
def canonUrl (c : Cid) (ps : Params) (pn : Str) : UrlState :=
  { hostname := cidToString c ++ paramsToString ps, pathname := pn }

/-- What parsing the canonical URL state yields. -/
def canonParsed (c : Cid) (ps : Params) (pn : Str) : ParsedUrl :=
  { urlState := canonUrl c ps pn, cid := c, parameters := ps,
    segments := segmentsDecode (pn.drop 1), resolveFinal := lastIs '/' pn }

theorem hrefOf_canonUrl (c : Cid) (ps : Params) (pn : Str) :
    hrefOf (canonUrl c ps pn) =
      "ipld://".data ++ ((cidToString c ++ paramsToString ps) ++ pn) := by
  simp [hrefOf, canonUrl]

theorem parseIPLDURL_canonUrl (c : Cid) (ps : Params) (pn : Str)
    (hps : AsciiParams ps) (hpath : pn = [] ∨ ∃ r, pn = '/' :: r) :
    parseIPLDURL (hrefOf (canonUrl c ps pn)) = .ok (canonParsed c ps pn) := by
  rw [hrefOf_canonUrl]
  exact parseIPLDURL_canonical c ps pn hps hpath

/-- Round trip of the URL model under genuine setter construction:
parsing the serialised form recovers the CID, the parameters and the
segments — including names with `/` and `;`, which travel
percent-encoded (`%2F` / `%3B`). -/
theorem url_setters_roundtrip (c : Cid) (ps : Params) (segs : List Segment)
    (hps : AsciiParams ps) (hsegs : ∀ s ∈ segs, GoodSegment s) :
    ∃ u p, mkViaSetters c ps segs = .ok u ∧ parseIPLDURL (hrefOf u) = .ok p ∧
      p.cid = c ∧ p.parameters = ps ∧ p.segments = segs := by
  match segs, hsegs with
  | [], _ =>
    refine ⟨canonUrl c ps [], canonParsed c ps [], ?_, ?_, rfl, rfl, rfl⟩
    · exact mkViaSetters_eq c ps []
    · exact parseIPLDURL_canonUrl c ps [] hps (Or.inl rfl)
  | s0 :: rest, hsegs =>
    obtain ⟨e, t, henc, hene⟩ := segmentsEncode_head s0 rest hsegs
    have hset : setSegments { hostname := cidToString c ++ paramsToString ps, pathname := [] }
        (s0 :: rest) = canonUrl c ps ('/' :: segmentsEncode (s0 :: rest)) := by
      rw [setSegments, henc, setPathname_cons_ne _ e t hene, ← henc]
      rfl
    refine ⟨canonUrl c ps ('/' :: segmentsEncode (s0 :: rest)),
      canonParsed c ps ('/' :: segmentsEncode (s0 :: rest)), ?_, ?_, rfl, rfl, ?_⟩
    · rw [mkViaSetters_eq c ps (s0 :: rest), hset]
    · exact parseIPLDURL_canonUrl c ps _ hps (Or.inr ⟨_, rfl⟩)
    · show segmentsDecode (('/' :: segmentsEncode (s0 :: rest)).drop 1) = s0 :: rest
      show segmentsDecode (segmentsEncode (s0 :: rest)) = s0 :: rest
      exact segmentsDecode_encode _ hsegs

/-! ## Inversion and shape lemmas for parsing -/

theorem splitHost_snd_shape (r : Str) :
    (splitHost r).2 = [] ∨ ∃ t, (splitHost r).2 = '/' :: t := by
  induction r with
  | nil => exact Or.inl rfl
  | cons c t ih =>
    by_cases h : c = '/'
    · subst h
      exact Or.inr ⟨t, rfl⟩
    · rw [splitHost_cons_ne c t h]
      exact ih

theorem parseIPLDURL_inv (url : Str) (parsed : ParsedUrl)
    (h : parseIPLDURL url = .ok parsed) :
    mkUrl url = .ok parsed.urlState ∧
      urlCid parsed.urlState = .ok parsed.cid ∧
      parsed.parameters = hostParams parsed.urlState.hostname ∧
      parsed.segments = segmentsDecode (parsed.urlState.pathname.drop 1) ∧
      parsed.resolveFinal = lastIs '/' parsed.urlState.pathname ∧
      (parsed.urlState.pathname = [] ∨ ∃ t, parsed.urlState.pathname = '/' :: t) := by
  rw [parseIPLDURL] at h
  cases hm : mkUrl url with
  | error e => rw [hm] at h; exact absurd h (by simp [exceptBind_error])
  | ok u =>
    rw [hm, exceptBind_ok] at h
    cases hc : urlCid u with
    | error e => rw [hc] at h; exact absurd h (by simp [exceptBind_error])
    | ok c =>
      rw [hc, exceptBind_ok] at h
      have hp := Except.ok.inj h
      subst hp
      refine ⟨rfl, hc, rfl, rfl, rfl, ?_⟩
      have hshape : u = UrlState.mk (splitHost (url.drop 7)).1 (splitHost (url.drop 7)).2 := by
        rw [mkUrl] at hm
        by_cases hp7 : url.take 7 = ipldScheme
        · rw [if_pos hp7] at hm
          exact (Except.ok.inj hm).symm
        · rw [if_neg hp7] at hm
          exact absurd hm (by simp)
      rw [hshape]
      exact splitHost_snd_shape _

/-! ## Run lemmas for the effect monad -/

theorem m_run_bind {α β : Type} (x : M α) (f : α → M β) (st : St) :
    (x >>= f) st = match x st with
      | (.ok a, s2) => f a s2
      | (.error e, s2) => (.error e, s2) := rfl

theorem m_run_pure {α : Type} (a : α) (st : St) : (pure a : M α) st = (.ok a, st) := rfl

theorem m_run_liftE_ok {α : Type} (a : α) (st : St) :
    liftE (.ok a : Except JsErr α) st = (.ok a, st) := rfl

theorem m_run_liftE_error {α : Type} (e : JsErr) (st : St) :
    (liftE (.error e : Except JsErr α) : M α) st = (.error e, st) := rfl

theorem m_run_throw {α : Type} (e : JsErr) (st : St) :
    (throwM e : M α) st = (.error e, st) := rfl

/-! ## Shared concrete fixtures for witnesses and counterexamples -/

/-- A system with no ADLs and a schema engine that rejects everything
(none of the plain-resolver fixtures consult it). -/
def sysNone : Sys := { toTyped := fun _ _ _ => none, toRepr := fun _ _ n => n, adls := [] }

def demoRoot : Cid := { code := 0x71, digest := 0 }

def demoChild : Cid := { code := 0x71, digest := 1 }

/-- Store: `demoRoot ↦ { example: <link demoChild> }`,
`demoChild ↦ "Hello"`. -/
def demoStore : St :=
  { store := [(demoRoot, .map [("example".data, .link demoChild none)]),
              (demoChild, .str "Hello".data)]
    nextDigest := 100
    saveLog := [] }

/-- `ipld://<demoRoot>/example` — no trailing slash. -/
def demoUrl : Str := "ipld://".data ++ cidToString demoRoot ++ "/example".data

/-- Store with a single map lacking the key `missing`. -/
def missStore : St :=
  { store := [(demoRoot, .map [("hello".data, .str "world".data)])]
    nextDigest := 100
    saveLog := [] }

def missUrl : Str := "ipld://".data ++ cidToString demoRoot ++ "/missing".data

/-! ## Claim theorems -/

/-- Claim C10 (counterexample): the pathname `/` decodes to one
empty-named segment while the empty pathname decodes to none, so "the
segment list of a path ending in `/` equals the segment list of the
same path without the trailing `/`" fails at the concrete pathname
`"/"` (= `"" + "/"`). -/
theorem segmentsDecode_slash_counterexample :
    segmentsDecode ['/'] = [{ name := [], params := some [] }] ∧
      segmentsDecode ([] : Str) = [] ∧
      segmentsDecode (([] : Str) ++ ['/']) ≠ segmentsDecode ([] : Str) := by
  refine ⟨rfl, rfl, ?_⟩
  intro h
  rw [show (([] : Str) ++ ['/']) = ['/'] from rfl] at h
  rw [show segmentsDecode ['/'] = [{ name := [], params := some [] }] from rfl] at h
  rw [show segmentsDecode ([] : Str) = [] from rfl] at h
  exact List.noConfusion h

/-- Claim C10 (amended): `IPLDURLSegments.decode` pops exactly one
trailing empty segment, so for a non-empty pathname that does not
already end in `/`, appending a trailing `/` leaves the decoded segment
list unchanged (the original claim fails for the empty pathname and for
pathnames already ending in `/`). -/
theorem segmentsDecode_append_slash (p : Str) (h1 : p ≠ []) (h2 : lastIs '/' p = false) :
    segmentsDecode (p ++ ['/']) = segmentsDecode p := by
  have hne : p ++ ['/'] ≠ [] := by simp
  have hlast : lastIs '/' (p ++ ['/']) = true := by
    rw [lastIs_append_right '/' p ['/'] (by simp)]
    rfl
  rw [segmentsDecode, if_neg hne, segmentsDecode, if_neg h1]
  simp only [hlast, if_true, h2, Bool.false_eq_true, if_false]
  rw [splitOnChar_concat_sep, List.map_append]
  simp

/-- Claim C10 witness: the theorem at `p = "hello;x"`. -/
theorem segmentsDecode_append_slash_witness :
    segmentsDecode ("hello;x".data ++ ['/']) = segmentsDecode "hello;x".data :=
  segmentsDecode_append_slash "hello;x".data (by decide) (by decide)

/-- Claim C1 (counterexample): with the default options, `resolve` on a
URL without a trailing slash whose final segment is a link returns the
linked node, not the link CID; the CID comes back only when the caller
passes `resolveFinalCID: false`. -/
theorem resolve_default_counterexample :
    (resolve sysNone demoUrl none demoStore).1 = .ok (.str "Hello".data) ∧
      (resolve sysNone demoUrl none demoStore).1 ≠ .ok (.link demoChild none) ∧
      (resolve sysNone demoUrl (some false) demoStore).1 = .ok (.link demoChild none) := by
  refine ⟨rfl, ?_, rfl⟩
  intro h
  rw [show (resolve sysNone demoUrl none demoStore).1 = .ok (.str "Hello".data) from rfl] at h
  injection h with h2
  exact Node.noConfusion h2

/-- Claim C1 (amended): the declared default of `resolveFinalCID` is
`true` — not "whether the URL ends in `/`" — so a call without options
behaves exactly like `resolveFinalCID: true`, and with that value the
final selection always returns the data, never the link CID.  The link
CID is returned only when the caller passes `resolveFinalCID: false`
and the URL does not end in `/`. -/
theorem resolve_default_is_true :
    (∀ sys url, resolve sys url none = resolve sys url (some true)) ∧
      (∀ rf ref d, finalSelect rf true ref d = d) := by
  constructor
  · intro sys url
    rfl
  · intro rf ref d
    cases ref with
    | none => rfl
    | some r => simp [finalSelect]

/-- Claim C2 (counterexample): during a resolve walk a missing key does
not raise PathNotFound — the property read yields `undefined`, which
`resolve` returns as a value. -/
theorem resolve_missing_key_counterexample :
    (resolve sysNone missUrl none missStore).1 = .ok .undef ∧
      ∀ e, (resolve sysNone missUrl none missStore).1 ≠ .error e := by
  refine ⟨rfl, ?_⟩
  intro e h
  rw [show (resolve sysNone missUrl none missStore).1 = .ok .undef from rfl] at h
  exact Except.noConfusion h

/-- Claim C2 (amended): the `Path <name> not found in node` error —
which does include the offending segment name — is raised during patch
descent (`#applyPatch`), not during `resolve`: descending into a map
that lacks the next segment name fails with exactly that error and
leaves the state untouched. -/
theorem applyPatch_missing_key (sys : Sys) (st : St) (kvs : List (Str × Node)) (nm : Str)
    (prm : Option Params) (seg2 : Segment) (rest : List Segment) (op : PatchFn)
    (h : assocFind kvs nm = none) :
    applyPatch sys (.map kvs) ({ name := nm, params := prm } :: seg2 :: rest) op st =
      (.error (.error ("Path ".data ++ nm ++ " not found in node".data)), st) := by
  have hhas : jsHasProp (.map kvs) nm = .ok false := by
    simp [jsHasProp, h]
  simp only [applyPatch, asCID]
  rw [m_run_bind, hhas, m_run_liftE_ok]
  rfl

/-- Claim C2 witness: the amended theorem at a concrete store. -/
theorem applyPatch_missing_key_witness :
    applyPatch sysNone (.map [("hello".data, .str "world".data)])
        ({ name := "missing".data, params := none } ::
          { name := "deeper".data, params := none } :: []) makeRemove missStore =
      (.error (.error ("Path ".data ++ "missing".data ++ " not found in node".data)),
        missStore) :=
  applyPatch_missing_key sysNone missStore _ _ _ _ _ makeRemove rfl

/-- Claim C3 (code bug): when the schema rejects a node
(`toTyped` yields `undefined`), `makeTyped` throws a `TypeError` at the
`converted[SUBSTRATE] = …` assignment on line 706 — before the
`if (!converted)` SchemaMismatch check on lines 711-715 can run — so
the documented SchemaMismatch diagnostic is never produced. -/
theorem makeTyped_rejected_node_typeerror (sys : Sys) (node dmt : Node) (ty : Str)
    (h : sys.toTyped dmt ty node = none) :
    makeTyped sys node dmt ty =
      .error (.typeError "Cannot set properties of undefined adding SUBSTRATE".data) := by
  simp [makeTyped, h]

/-- Claim C3 witness: a concrete engine rejecting the node. -/
theorem makeTyped_rejected_node_typeerror_witness :
    makeTyped sysNone (.str "hello".data) (.map []) "Example".data =
      .error (.typeError "Cannot set properties of undefined adding SUBSTRATE".data) :=
  makeTyped_rejected_node_typeerror sysNone (.str "hello".data) (.map []) "Example".data rfl

/-- Claim C4 (code bug): `makeTyped` on a schema type whose DMT is a
`list` reads `typeDMT.map.valueType` (src/index.js line 761 — the
apparent typo for `list.valueType`); `typeDMT.map` is `undefined` for a
list type, so the read throws a `TypeError` and no typed view is ever
produced — list element links are never tagged or resolved through
their expected type, contrary to the claim (and to the README's
"[x] List values"). -/
theorem makeTyped_list_valueType_crash (sys : Sys) (node dmt : Node) (ty : Str)
    (conv typesN typeDMT structV listV : Node)
    (h1 : sys.toTyped dmt ty node = some conv)
    (h2 : jsIsObject conv = true)
    (h3 : jsGetPlain dmt "types".data = .ok typesN)
    (h4 : jsGetPlain typesN ty = .ok typeDMT)
    (h5 : jsGetPlain typeDMT "struct".data = .ok structV)
    (h6 : jsTruthy structV = false)
    (h7 : jsGetPlain typeDMT "map".data = .ok .undef)
    (h8 : jsGetPlain typeDMT "list".data = .ok listV)
    (h9 : jsTruthy listV = true) :
    makeTyped sys node dmt ty =
      .error (.typeError
        ("Cannot read properties of undefined reading ".data ++ "valueType".data)) := by
  simp [makeTyped, h1, h2, h3, h4, h5, h6, h7, h8, h9, jsGetPlain, exceptBind_ok,
    exceptBind_error]

/-- Schema engine stub accepting everything as an (object) list. -/
def sysList : Sys :=
  { toTyped := fun _ _ _ => some (.list []), toRepr := fun _ _ n => n, adls := [] }

/-- A DMT with a single list type `L`. -/
def listDmt : Node :=
  .map [("types".data, .map [("L".data, .map [("list".data, .map [])])])]

/-- Claim C4 witness: the crash at the concrete list-typed DMT. -/
theorem makeTyped_list_valueType_crash_witness :
    makeTyped sysList (.list []) listDmt "L".data =
      .error (.typeError
        ("Cannot read properties of undefined reading ".data ++ "valueType".data)) :=
  makeTyped_list_valueType_crash sysList (.list []) listDmt "L".data
    (.list []) (.map [("L".data, .map [("list".data, .map [])])])
    (.map [("list".data, .map [])]) .undef (.map [])
    rfl rfl rfl rfl rfl rfl rfl rfl rfl

/-- Claim C9: a root CID whose codec is neither `0x71` (dag-cbor) nor
`0x0129` (dag-json) makes `patch` fail with the UnsupportedCodec error
before the operation loop — for every patch set, the empty one
included — leaving the store state untouched. -/
theorem patch_unsupported_codec (sys : Sys) (url : Str) (ps : List PatchOp) (st : St)
    (parsed : ParsedUrl) (hparse : parseIPLDURL url = .ok parsed)
    (h1 : parsed.cid.code ≠ 0x71) (h2 : parsed.cid.code ≠ 0x0129) :
    patch sys url ps st =
      (.error (.error "Unknown codec, only dag-cobor and dag-json supported for patch".data),
        st) := by
  have henc : getCidEncoding parsed.cid =
      .error (.error "Unknown codec, only dag-cobor and dag-json supported for patch".data) := by
    simp [getCidEncoding, h1, h2]
  simp only [patch, m_run_bind, hparse, m_run_liftE_ok, henc, m_run_liftE_error]

/-- Claim C9 witness: codec `0x55` (raw), empty patch set. -/
theorem patch_unsupported_codec_witness :
    patch sysNone ("ipld://".data ++ cidToString { code := 0x55, digest := 0 } ++ "/".data)
        [] demoStore =
      (.error (.error "Unknown codec, only dag-cobor and dag-json supported for patch".data),
        demoStore) :=
  patch_unsupported_codec sysNone _ [] demoStore
    (canonParsed { code := 0x55, digest := 0 } [] "/".data) rfl (by decide) (by decide)

/-- Claim C5 (counterexample): `patch` with an empty patch set on a
URL whose (supported-codec) CID is written in base36 returns a URL with
the CID re-serialised in base32 — not byte-equal to the input. -/
theorem patch_empty_not_byte_equal :
    (patch sysNone ("ipld://".data ++ cidToString36 demoRoot ++ "/".data) [] demoStore).1 =
      .ok ("ipld://".data ++ cidToString demoRoot ++ "/".data) ∧
      ("ipld://".data ++ cidToString demoRoot ++ "/".data) ≠
        ("ipld://".data ++ cidToString36 demoRoot ++ "/".data) :=
  ⟨rfl, by decide⟩

/-- Claim C5 (amended): `patch(url, [])` performs no store operation
and returns the input URL with its authority rebuilt by the `cid`
setter (base32 CID plus re-encoded parameters).  The result is
byte-equal to the input whenever the input hostname was already in
that canonical form (for base36 or otherwise non-canonical authorities
it is not — see the counterexample), and it always parses to the same
cid, parameters, segments and trailing-slash flag, so resolving the
returned URL gives the same result as resolving the input. -/
theorem patch_empty_identity (sys : Sys) (url : Str) (st : St) (parsed : ParsedUrl)
    (hparse : parseIPLDURL url = .ok parsed)
    (hcodec : parsed.cid.code = 0x71 ∨ parsed.cid.code = 0x0129) :
    patch sys url [] st = (.ok (hrefOf (setCid parsed.urlState parsed.cid)), st) ∧
      (∀ ps0, AsciiParams ps0 →
        parsed.urlState.hostname = cidToString parsed.cid ++ paramsToString ps0 →
        hrefOf (setCid parsed.urlState parsed.cid) = url) ∧
      (AsciiParams parsed.parameters →
        ∀ o st2, resolve sys (hrefOf (setCid parsed.urlState parsed.cid)) o st2 =
          resolve sys url o st2) := by
  obtain ⟨inv1, inv2, inv3, inv4, inv5, inv6⟩ := parseIPLDURL_inv url parsed hparse
  obtain ⟨enc, henc⟩ : ∃ e, getCidEncoding parsed.cid = .ok e := by
    rcases hcodec with h | h <;> simp [getCidEncoding, h]
  refine ⟨?_, ?_, ?_⟩
  · simp only [patch, m_run_bind, hparse, m_run_liftE_ok, henc, patchLoop, m_run_pure]
  · intro ps0 hps0 hcanon
    have hparams : hostParams parsed.urlState.hostname = ps0 := by
      rw [hcanon]
      exact hostParams_canonical _ _ hps0
    have hhost : cidToString parsed.cid ++ paramsToString (hostParams parsed.urlState.hostname) =
        parsed.urlState.hostname := by
      rw [hparams, ← hcanon]
    have hsetcid : setCid parsed.urlState parsed.cid = parsed.urlState := by
      rw [setCid, hhost]
    rw [hsetcid]
    exact hrefOf_mkUrl url parsed.urlState inv1
  · intro hap o st2
    have hsetcid : setCid parsed.urlState parsed.cid =
        canonUrl parsed.cid parsed.parameters parsed.urlState.pathname := by
      rw [setCid, canonUrl, inv3]
    have hparse2 : parseIPLDURL (hrefOf (setCid parsed.urlState parsed.cid)) =
        .ok (canonParsed parsed.cid parsed.parameters parsed.urlState.pathname) := by
      rw [hsetcid]
      exact parseIPLDURL_canonUrl parsed.cid parsed.parameters parsed.urlState.pathname hap inv6
    simp only [resolve, m_run_bind, hparse, hparse2, m_run_liftE_ok]
    show resolveParsed sys parsed.cid parsed.parameters
        (segmentsDecode (parsed.urlState.pathname.drop 1))
        (lastIs '/' parsed.urlState.pathname) o st2 =
      resolveParsed sys parsed.cid parsed.parameters parsed.segments parsed.resolveFinal o st2
    rw [← inv4, ← inv5]

/-- Claim C5 witness: the theorem at `ipld://<base32 demoRoot>/`. -/
theorem patch_empty_identity_witness :
    patch sysNone ("ipld://".data ++ cidToString demoRoot ++ "/".data) [] demoStore =
        (.ok (hrefOf (setCid (canonParsed demoRoot [] "/".data).urlState
          (canonParsed demoRoot [] "/".data).cid)), demoStore) ∧
      (∀ ps0, AsciiParams ps0 →
        (canonParsed demoRoot [] "/".data).urlState.hostname =
          cidToString (canonParsed demoRoot [] "/".data).cid ++ paramsToString ps0 →
        hrefOf (setCid (canonParsed demoRoot [] "/".data).urlState
          (canonParsed demoRoot [] "/".data).cid) =
          "ipld://".data ++ cidToString demoRoot ++ "/".data) ∧
      (AsciiParams (canonParsed demoRoot [] "/".data).parameters →
        ∀ o st2, resolve sysNone (hrefOf (setCid (canonParsed demoRoot [] "/".data).urlState
            (canonParsed demoRoot [] "/".data).cid)) o st2 =
          resolve sysNone ("ipld://".data ++ cidToString demoRoot ++ "/".data) o st2) :=
  patch_empty_identity sysNone ("ipld://".data ++ cidToString demoRoot ++ "/".data)
    demoStore (canonParsed demoRoot [] "/".data) rfl (Or.inl rfl)

/-- Claim C6 witness: the round trip at a CID with parameters and a
segment whose name contains both `/` and `;` and whose parameter value
contains `;` and `=`. -/
theorem url_setters_roundtrip_witness :
    ∃ u p, mkViaSetters demoRoot [("k".data, "v;x".data)]
        [{ name := "hello/world;a".data, params := some [("t".data, "u=1".data)] }] = .ok u ∧
      parseIPLDURL (hrefOf u) = .ok p ∧
      p.cid = demoRoot ∧
      p.parameters = [("k".data, "v;x".data)] ∧
      p.segments = [{ name := "hello/world;a".data, params := some [("t".data, "u=1".data)] }] :=
  url_setters_roundtrip demoRoot [("k".data, "v;x".data)]
    [{ name := "hello/world;a".data, params := some [("t".data, "u=1".data)] }]
    (by decide)
    (by
      intro s hs
      rw [List.mem_singleton] at hs
      subst hs
      exact ⟨by decide, by decide, by decide, by decide,
        [("t".data, "u=1".data)], rfl, by decide⟩)

instance : LawfulMonad M :=
  LawfulMonad.mk' M
    (fun x => by
      funext st
      show (x >>= fun a => pure (id a)) st = x st
      rw [m_run_bind]
      rcases hx : x st with ⟨e, s2⟩
      cases e <;> rfl)
    (fun x f => by
      funext st
      rw [m_run_bind, m_run_pure])
    (fun x f g => by
      funext st
      simp only [m_run_bind]
      rcases hx : x st with ⟨e, s2⟩
      cases e <;> rfl)

/-- Claim C8: one `move` operation is exactly the specification's
read-then-remove-then-add sequence — the `from` value is resolved
(without following a final link) before the removal at `from` is
applied, and the captured value is then added at `path`. -/
theorem patch_move_reads_before_remove (sys : Sys) (url : Str) (p f : Str) :
    patch sys url [{ op := "move".data, path := p, fromPath := f }] =
      moveReadRemoveAdd sys url p f := by
  have h1 : ¬ ("move".data = "add".data) := by decide
  have h2 : ¬ ("move".data = "remove".data) := by decide
  have h3 : ¬ ("move".data = "replace".data) := by decide
  have h4 : ¬ ("move".data = "copy".data) := by decide
  have h5 : ¬ (['m', 'o', 'v', 'e'] : Str) = ['t', 'e', 's', 't'] := by decide
  have h6 : ¬ ("move".data = "test".data) := by decide
  simp only [patch, patchLoop, moveReadRemoveAdd, h1, h2, h3, h4, h5, h6, if_false,
    if_true, bind_assoc, pure_bind]

/-! ## Codec preservation (claim C7)

`St.saveLog` records, for every `saveNode` call, the CID the saved node
replaces and the encoding passed.  The invariant: every logged encoding
is exactly `getCidEncoding` of the replaced CID. -/

def EncOK (p : Cid × Str) : Prop := getCidEncoding p.1 = .ok p.2

def LogOK (st : St) : Prop := ∀ p ∈ st.saveLog, EncOK p

def preservesEnc {α : Type} (m : M α) : Prop :=
  ∀ st, LogOK st → LogOK (m st).2

/-- Every registered ADL function preserves the invariant (trivially
true for an empty registry). -/
def AdlsOK (sys : Sys) : Prop :=
  ∀ e ∈ sys.adls, ∀ n ps, preservesEnc (e.2 n ps)

theorem preservesEnc_pure {α : Type} (a : α) : preservesEnc (pure a : M α) :=
  fun _ h => h

theorem preservesEnc_throw {α : Type} (e : JsErr) : preservesEnc (throwM e : M α) :=
  fun _ h => h

theorem preservesEnc_liftE {α : Type} (x : Except JsErr α) : preservesEnc (liftE x) := by
  cases x <;> exact fun _ h => h

theorem preservesEnc_storeGet (c : Cid) : preservesEnc (storeGet c) := by
  intro st h
  rw [storeGet]
  cases st.store.find? (fun e => e.1 = c) <;> exact h

theorem preservesEnc_bind {α β : Type} {x : M α} {g : α → M β}
    (hx : preservesEnc x)
    (hg : ∀ a st st2, x st = (.ok a, st2) → preservesEnc (g a)) :
    preservesEnc (x >>= g) := by
  intro st h
  rw [m_run_bind]
  rcases hrun : x st with ⟨e, s2⟩
  have h2 : LogOK s2 := by
    have := hx st h
    rw [hrun] at this
    exact this
  cases e with
  | ok a => exact hg a st s2 hrun s2 h2
  | error e2 => exact h2

theorem preservesEnc_bind_simple {α β : Type} {x : M α} {g : α → M β}
    (hx : preservesEnc x) (hg : ∀ a, preservesEnc (g a)) : preservesEnc (x >>= g) :=
  preservesEnc_bind hx (fun a _ _ _ => hg a)

theorem preservesEnc_saveNodeM (replaced : Cid) (n : Node) (enc : Str)
    (h : getCidEncoding replaced = .ok enc) :
    preservesEnc (saveNodeM replaced n enc) := by
  intro st hlog p hmem
  have : p ∈ st.saveLog ++ [(replaced, enc)] := hmem
  rcases List.mem_append.mp this with hm | hm
  · exact hlog p hm
  · rw [List.mem_singleton] at hm
    subst hm
    exact h

theorem m_run_bind_ok_inv {α β : Type} {x : M α} {g : α → M β} {st st2 : St} {b : β}
    (h : (x >>= g) st = (.ok b, st2)) :
    ∃ a stm, x st = (.ok a, stm) ∧ g a stm = (.ok b, st2) := by
  rw [m_run_bind] at h
  rcases hx : x st with ⟨e, s⟩
  rw [hx] at h
  cases e with
  | ok a => exact ⟨a, s, rfl, h⟩
  | error e2 => exact absurd h (by simp)

theorem m_run_liftE_ok_inv {α : Type} {x : Except JsErr α} {st st2 : St} {a : α}
    (h : liftE x st = (.ok a, st2)) : x = .ok a ∧ st2 = st := by
  cases x with
  | ok b =>
    rw [m_run_liftE_ok] at h
    obtain ⟨h1, h2⟩ := Prod.mk.injEq .. ▸ h
    exact ⟨by rw [Except.ok.inj h1], h2.symm⟩
  | error e =>
    rw [m_run_liftE_error] at h
    exact absurd h (by simp)

theorem m_run_pure_ok_inv {α : Type} {a b : α} {st st2 : St}
    (h : (pure a : M α) st = (.ok b, st2)) : b = a ∧ st2 = st := by
  rw [m_run_pure] at h
  obtain ⟨h1, h2⟩ := Prod.mk.injEq .. ▸ h
  exact ⟨(Except.ok.inj h1).symm, h2.symm⟩

/-- The CID a save returns carries the codec of the encoding; for a
supported encoding `getCidEncoding` reads it back. -/
theorem getCidEncoding_codeOf {c : Cid} {e : Str} (h : getCidEncoding c = .ok e) (d : Nat) :
    getCidEncoding { code := codeOfEncoding e, digest := d } = .ok e := by
  rw [getCidEncoding] at h
  by_cases h71 : c.code = 0x71
  · rw [if_pos h71] at h
    have he : e = "dag-cbor".data := (Except.ok.inj h).symm
    subst he
    rfl
  · rw [if_neg h71] at h
    by_cases h29 : c.code = 0x0129
    · rw [if_pos h29] at h
      have he : e = "dag-json".data := (Except.ok.inj h).symm
      subst he
      rfl
    · rw [if_neg h29] at h
      exact absurd h (by simp)

theorem preservesEnc_getNodeSys (sys : Sys) (ref : LinkRef) :
    preservesEnc (getNodeSys sys ref) := by
  rw [getNodeSys]
  apply preservesEnc_bind_simple (preservesEnc_storeGet _)
  intro node
  cases ref.2 with
  | none => exact preservesEnc_pure _
  | some l => exact preservesEnc_liftE _

theorem preservesEnc_SchemaADL (sys : Sys) (node : Node) (schema ty : Option Str) :
    preservesEnc (SchemaADL sys node schema ty) := by
  rw [SchemaADL]
  by_cases hc : !truthyOptStr schema || !truthyOptStr ty
  · simp only [hc, Bool.true_eq_false, if_true]
    exact preservesEnc_throw _
  · simp only [hc, Bool.true_eq_false, if_false]
    apply preservesEnc_bind_simple (preservesEnc_liftE _)
    intro scid
    apply preservesEnc_bind_simple (preservesEnc_getNodeSys _ _)
    intro dmt
    exact preservesEnc_liftE _

theorem preservesEnc_applyParameters (sys : Sys) (h : AdlsOK sys) (origin : Node)
    (params : Option Params) : preservesEnc (applyParameters sys origin params) := by
  cases params with
  | none => exact preservesEnc_pure _
  | some ps =>
    rw [applyParameters]
    apply preservesEnc_bind_simple
    · cases asCID origin with
      | some ref => exact preservesEnc_getNodeSys _ _
      | none => exact preservesEnc_pure _
    · intro data
      have htail : ∀ data2 : Node,
          preservesEnc (if truthyOptStr (paramsGet ps "adl".data) = true then
            match sys.adls.find? (fun e => e.1 = (paramsGet ps "adl".data).getD []) with
            | none =>
              throwM (.error ("Unknown ADL type ".data ++ (paramsGet ps "adl".data).getD [] ++
                ". Must be one of ".data ++ joinWith ", ".data (sys.adls.map (fun x => x.1))))
            | some e => e.2 data2 ps
          else pure data2) := by
        intro data2
        by_cases ha : truthyOptStr (paramsGet ps "adl".data) = true
        · simp only [ha, if_true]
          cases hf : sys.adls.find? (fun e => e.1 = (paramsGet ps "adl".data).getD []) with
          | none => exact preservesEnc_throw _
          | some e => exact h e (List.mem_of_find?_eq_some hf) data2 ps
        · simp only [ha, if_false]
          exact preservesEnc_pure _
      by_cases hs : truthyOptStr (paramsGet ps "schema".data) = true
      · simp only [hs, if_true]
        exact preservesEnc_bind_simple (preservesEnc_SchemaADL _ _ _ _) htail
      · simp only [hs, if_false]
        exact preservesEnc_bind_simple (preservesEnc_pure _) htail

theorem preservesEnc_resolveSegs (sys : Sys) (h : AdlsOK sys) (segs : List Segment) :
    ∀ data lastC, preservesEnc (resolveSegs sys segs data lastC) := by
  induction segs with
  | nil => exact fun data lastC => preservesEnc_pure _
  | cons seg rest ih =>
    intro data lastC
    rw [resolveSegs]
    apply preservesEnc_bind_simple (preservesEnc_liftE _)
    intro d1
    cases asCID d1 with
    | some ref =>
      apply preservesEnc_bind_simple (preservesEnc_getNodeSys _ _)
      intro d2
      apply preservesEnc_bind_simple (preservesEnc_applyParameters _ h _ _)
      intro d3
      exact ih d3 (some ref)
    | none =>
      apply preservesEnc_bind_simple (preservesEnc_applyParameters _ h _ _)
      intro d3
      exact ih d3 none

theorem preservesEnc_resolveParsed (sys : Sys) (h : AdlsOK sys) (c : Cid) (ps : Params)
    (segs : List Segment) (rf : Bool) (o : Option Bool) :
    preservesEnc (resolveParsed sys c ps segs rf o) := by
  rw [resolveParsed]
  apply preservesEnc_bind_simple (preservesEnc_getNodeSys _ _)
  intro data
  apply preservesEnc_bind_simple (preservesEnc_applyParameters _ h _ _)
  intro data2
  apply preservesEnc_bind_simple (preservesEnc_resolveSegs _ h _ _ _)
  intro r
  exact preservesEnc_pure _

theorem preservesEnc_resolve (sys : Sys) (h : AdlsOK sys) (url : Str) (o : Option Bool) :
    preservesEnc (resolve sys url o) := by
  rw [resolve]
  apply preservesEnc_bind_simple (preservesEnc_liftE _)
  intro p
  exact preservesEnc_resolveParsed sys h p.cid p.parameters p.segments p.resolveFinal o

theorem preservesEnc_applyPatch (sys : Sys) (h : AdlsOK sys) (segs : List Segment) :
    ∀ node op, preservesEnc (applyPatch sys node segs op) := by
  induction segs with
  | nil => exact fun node op => preservesEnc_throw _
  | cons seg rest ih =>
    intro node op
    cases rest with
    | nil =>
      show preservesEnc (applyPatch sys node [seg] op)
      rw [applyPatch]
      cases hc : asCID node with
      | none => exact preservesEnc_liftE _
      | some ref =>
        apply preservesEnc_bind_simple (preservesEnc_getNodeSys _ _)
        intro data
        apply preservesEnc_bind_simple (preservesEnc_applyParameters _ h _ _)
        intro data2
        apply preservesEnc_bind_simple (preservesEnc_liftE _)
        intro modified
        apply preservesEnc_bind (preservesEnc_liftE _)
        intro enc st st2 hrun
        obtain ⟨henc, _⟩ := m_run_liftE_ok_inv hrun
        apply preservesEnc_bind_simple (preservesEnc_saveNodeM _ _ _ henc)
        intro newCID
        exact preservesEnc_pure _
    | cons s2 t =>
      rw [applyPatch]
      cases hc : asCID node with
      | some ref =>
        apply preservesEnc_bind_simple (preservesEnc_getNodeSys _ _)
        intro data
        apply preservesEnc_bind_simple (preservesEnc_liftE _)
        intro present
        by_cases hp : (!present) = true
        · simp only [hp, if_true]
          exact preservesEnc_throw _
        · simp only [hp, Bool.false_eq_true, if_false]
          apply preservesEnc_bind_simple (preservesEnc_liftE _)
          intro existing
          apply preservesEnc_bind_simple (preservesEnc_applyParameters _ h _ _)
          intro wrapped
          apply preservesEnc_bind_simple (ih wrapped op)
          intro updated
          apply preservesEnc_bind (preservesEnc_liftE _)
          intro enc st st2 hrun
          obtain ⟨henc, _⟩ := m_run_liftE_ok_inv hrun
          apply preservesEnc_bind_simple (preservesEnc_saveNodeM _ _ _ henc)
          intro newCID
          exact preservesEnc_pure _
      | none =>
        apply preservesEnc_bind_simple (preservesEnc_liftE _)
        intro present
        by_cases hp : (!present) = true
        · simp only [hp, if_true]
          exact preservesEnc_throw _
        · simp only [hp, Bool.false_eq_true, if_false]
          apply preservesEnc_bind_simple (preservesEnc_liftE _)
          intro existing
          apply preservesEnc_bind_simple (preservesEnc_applyParameters _ h _ _)
          intro wrapped
          apply preservesEnc_bind_simple (ih wrapped op)
          intro updated
          by_cases hA : jsIsArray node = true
          · simp only [hA, if_true]
            cases node <;> exact preservesEnc_pure _
          · simp only [hA, Bool.false_eq_true, if_false]
            exact preservesEnc_pure _
      exact fun hcon => List.noConfusion hcon

theorem saveNodeM_ok_inv {rep : Cid} {n : Node} {enc : Str} {st st2 : St} {c2 : Cid}
    (h : saveNodeM rep n enc st = (.ok c2, st2)) :
    c2 = { code := codeOfEncoding enc, digest := st.nextDigest } := by
  have h1 : (saveNodeM rep n enc st).1 = .ok c2 := by rw [h]
  have h2 : (Except.ok ({ code := codeOfEncoding enc, digest := st.nextDigest } : Cid) :
      Except JsErr Cid) = .ok c2 := h1
  exact (Except.ok.inj h2).symm

theorem expectCid_ok_inv {r : Node} {st st2 : St} {c2 : Cid}
    (h : expectCid r st = (.ok c2, st2)) : ∃ l2, r = .link c2 l2 := by
  cases r with
  | link c l =>
    have h1 : (expectCid (.link c l) st).1 = .ok c2 := by rw [h]
    have h2 : (Except.ok c : Except JsErr Cid) = .ok c2 := h1
    exact ⟨l, by rw [Except.ok.inj h2]⟩
  | nul => exact absurd (by rw [h] : (expectCid .nul st).1 = .ok c2) (by simp [expectCid, throwM])
  | undef => exact absurd (by rw [h] : (expectCid .undef st).1 = .ok c2) (by simp [expectCid, throwM])
  | bool b => exact absurd (by rw [h] : (expectCid (.bool b) st).1 = .ok c2) (by simp [expectCid, throwM])
  | int n => exact absurd (by rw [h] : (expectCid (.int n) st).1 = .ok c2) (by simp [expectCid, throwM])
  | str s => exact absurd (by rw [h] : (expectCid (.str s) st).1 = .ok c2) (by simp [expectCid, throwM])
  | list xs => exact absurd (by rw [h] : (expectCid (.list xs) st).1 = .ok c2) (by simp [expectCid, throwM])
  | map kvs => exact absurd (by rw [h] : (expectCid (.map kvs) st).1 = .ok c2) (by simp [expectCid, throwM])
  | typed conv dmt ty =>
    exact absurd (by rw [h] : (expectCid (.typed conv dmt ty) st).1 = .ok c2)
      (by simp [expectCid, throwM])

/-- `#applyPatch` applied to a CID node always returns (when it
succeeds) a freshly saved CID whose codec is the codec of the CID it
replaced. -/
theorem applyPatch_link_result (sys : Sys) (cid : Cid) (l : Option (Node × Str))
    (segs : List Segment) (op : PatchFn) (st st2 : St) (r : Node) (e : Str)
    (h : applyPatch sys (.link cid l) segs op st = (.ok r, st2))
    (he : getCidEncoding cid = .ok e) :
    ∃ d, r = .link { code := codeOfEncoding e, digest := d } none := by
  cases segs with
  | nil =>
    rw [applyPatch] at h
    exact absurd h (by simp [throwM])
  | cons seg rest =>
    cases rest with
    | nil =>
      rw [applyPatch] at h
      simp only [asCID] at h
      obtain ⟨data, st3, _, h⟩ := m_run_bind_ok_inv h
      obtain ⟨data2, st4, _, h⟩ := m_run_bind_ok_inv h
      obtain ⟨modified, st5, _, h⟩ := m_run_bind_ok_inv h
      obtain ⟨enc, st6, hencrun, h⟩ := m_run_bind_ok_inv h
      obtain ⟨hencx, hst6⟩ := m_run_liftE_ok_inv hencrun
      have henc_e : enc = e := Except.ok.inj (hencx.symm.trans he)
      obtain ⟨newCID, st7, hsave, h⟩ := m_run_bind_ok_inv h
      have hnew := saveNodeM_ok_inv hsave
      obtain ⟨hr, _⟩ := m_run_pure_ok_inv h
      exact ⟨st6.nextDigest, by rw [hr, hnew, henc_e]⟩
    | cons s2 t =>
      rw [applyPatch] at h
      · simp only [asCID] at h
        obtain ⟨data, st3, _, h⟩ := m_run_bind_ok_inv h
        obtain ⟨present, st4, _, h⟩ := m_run_bind_ok_inv h
        cases present with
        | false => simp [m_run_throw] at h
        | true =>
          simp only [Bool.not_true, Bool.false_eq_true, if_false] at h
          obtain ⟨existing, st5, _, h⟩ := m_run_bind_ok_inv h
          obtain ⟨wrapped, st6, _, h⟩ := m_run_bind_ok_inv h
          obtain ⟨updated, st7, _, h⟩ := m_run_bind_ok_inv h
          obtain ⟨enc, st8, hencrun, h⟩ := m_run_bind_ok_inv h
          obtain ⟨hencx, _⟩ := m_run_liftE_ok_inv hencrun
          have henc_e : enc = e := Except.ok.inj (hencx.symm.trans he)
          obtain ⟨newCID, st9, hsave, h⟩ := m_run_bind_ok_inv h
          have hnew := saveNodeM_ok_inv hsave
          obtain ⟨hr, _⟩ := m_run_pure_ok_inv h
          exact ⟨st8.nextDigest, by rw [hr, hnew, henc_e]⟩
      · exact fun hcon => List.noConfusion hcon

theorem preservesEnc_expectCid (r : Node) : preservesEnc (expectCid r) := by
  cases r with
  | link c l => exact preservesEnc_pure _
  | nul => exact preservesEnc_throw _
  | undef => exact preservesEnc_throw _
  | bool b => exact preservesEnc_throw _
  | int n => exact preservesEnc_throw _
  | str s => exact preservesEnc_throw _
  | list xs => exact preservesEnc_throw _
  | map kvs => exact preservesEnc_throw _
  | typed conv dmt ty => exact preservesEnc_throw _

theorem preservesEnc_patchLoop (sys : Sys) (h : AdlsOK sys) (parsed : ParsedUrl)
    (encoding : Str) (ops : List PatchOp) :
    ∀ cid, getCidEncoding cid = .ok encoding →
      preservesEnc (patchLoop sys parsed encoding cid ops) := by
  induction ops with
  | nil => exact fun cid _ => preservesEnc_pure _
  | cons op rest ih =>
    intro cid hcid
    simp only [patchLoop]
    apply preservesEnc_bind
    · -- the operation-selection prefix preserves the invariant
      by_cases c1 : op.op = "add".data
      · rw [if_pos c1]; exact preservesEnc_pure _
      · rw [if_neg c1]
        by_cases c2 : op.op = "remove".data
        · rw [if_pos c2]; exact preservesEnc_pure _
        · rw [if_neg c2]
          by_cases c3 : op.op = "replace".data
          · rw [if_pos c3]; exact preservesEnc_pure _
          · rw [if_neg c3]
            by_cases c4 : op.op = "copy".data
            · rw [if_pos c4]
              apply preservesEnc_bind_simple (preservesEnc_resolve sys h _ _)
              intro v
              exact preservesEnc_pure _
            · rw [if_neg c4]
              by_cases c5 : op.op = "move".data
              · rw [if_pos c5]
                apply preservesEnc_bind_simple (preservesEnc_resolve sys h _ _)
                intro v
                apply preservesEnc_bind_simple (preservesEnc_applyPatch sys h _ _ _)
                intro removed
                apply preservesEnc_bind_simple (preservesEnc_expectCid _)
                intro cid2
                exact preservesEnc_pure _
              · rw [if_neg c5]
                by_cases c6 : op.op = "test".data
                · rw [if_pos c6]; exact preservesEnc_pure _
                · rw [if_neg c6]; exact preservesEnc_throw _
    · intro sel stm stm2 hrun
      have hsel2 : getCidEncoding sel.2 = .ok encoding := by
        by_cases c1 : op.op = "add".data
        · rw [if_pos c1] at hrun
          obtain ⟨hs, _⟩ := m_run_pure_ok_inv hrun
          rw [hs]; exact hcid
        · rw [if_neg c1] at hrun
          by_cases c2 : op.op = "remove".data
          · rw [if_pos c2] at hrun
            obtain ⟨hs, _⟩ := m_run_pure_ok_inv hrun
            rw [hs]; exact hcid
          · rw [if_neg c2] at hrun
            by_cases c3 : op.op = "replace".data
            · rw [if_pos c3] at hrun
              obtain ⟨hs, _⟩ := m_run_pure_ok_inv hrun
              rw [hs]; exact hcid
            · rw [if_neg c3] at hrun
              by_cases c4 : op.op = "copy".data
              · rw [if_pos c4] at hrun
                obtain ⟨v, stm3, _, hrun2⟩ := m_run_bind_ok_inv hrun
                obtain ⟨hs, _⟩ := m_run_pure_ok_inv hrun2
                rw [hs]; exact hcid
              · rw [if_neg c4] at hrun
                by_cases c5 : op.op = "move".data
                · rw [if_pos c5] at hrun
                  obtain ⟨v, stm3, _, hrun2⟩ := m_run_bind_ok_inv hrun
                  obtain ⟨removed, stm4, hap, hrun3⟩ := m_run_bind_ok_inv hrun2
                  obtain ⟨cid2, stm5, hec, hrun4⟩ := m_run_bind_ok_inv hrun3
                  obtain ⟨hs, _⟩ := m_run_pure_ok_inv hrun4
                  obtain ⟨l2, hrem⟩ := expectCid_ok_inv hec
                  obtain ⟨d, hlink⟩ :=
                    applyPatch_link_result sys cid none _ makeRemove stm3 stm4 removed
                      encoding hap hcid
                  have hcid2 : cid2 = { code := codeOfEncoding encoding, digest := d } := by
                    have hJ := (hrem.symm.trans hlink)
                    injection hJ with h1 h2
                  rw [hs, hcid2]
                  exact getCidEncoding_codeOf hcid d
                · rw [if_neg c5] at hrun
                  by_cases c6 : op.op = "test".data
                  · rw [if_pos c6] at hrun
                    obtain ⟨hs, _⟩ := m_run_pure_ok_inv hrun
                    rw [hs]; exact hcid
                  · rw [if_neg c6] at hrun
                    rw [m_run_throw] at hrun
                    exact absurd hrun (by simp)
      apply preservesEnc_bind_simple (preservesEnc_getNodeSys _ _)
      intro node
      apply preservesEnc_bind_simple (preservesEnc_applyParameters _ h _ _)
      intro wrapped
      apply preservesEnc_bind_simple (preservesEnc_applyPatch sys h _ _ _)
      intro modified
      apply preservesEnc_bind (preservesEnc_saveNodeM _ _ _ hsel2)
      intro cid3 st3 st4 hsaverun
      have hcid3 : getCidEncoding cid3 = .ok encoding := by
        rw [saveNodeM_ok_inv hsaverun]
        exact getCidEncoding_codeOf hcid _
      exact ih cid3 hcid3

/-- Claim C7: throughout a `patch`, every `saveNode` call re-saves its
node under the codec of the CID it replaces — at each `#applyPatch`
level the encoding passed to `saveNode` is `getCidEncoding` of the
replaced CID (so a dag-cbor child stays dag-cbor and a dag-json child
stays dag-json), and the per-operation root re-save uses the root
encoding computed up front, which the new root CID keeps carrying.
Stated over the ghost save log: starting from a clean log, every
`(replaced, encoding)` entry recorded by `patch` satisfies
`getCidEncoding replaced = ok encoding` (ADL functions, which could
save arbitrarily, are required to respect the invariant — vacuous for
an empty registry). -/
theorem patch_preserves_codecs (sys : Sys) (url : Str) (ops : List PatchOp) (st : St)
    (hadls : AdlsOK sys) (hst : ∀ p ∈ st.saveLog, getCidEncoding p.1 = .ok p.2) :
    ∀ p ∈ ((patch sys url ops) st).2.saveLog, getCidEncoding p.1 = .ok p.2 := by
  have hp : preservesEnc (patch sys url ops) := by
    rw [patch]
    apply preservesEnc_bind_simple (preservesEnc_liftE _)
    intro parsed
    apply preservesEnc_bind (preservesEnc_liftE _)
    intro encoding stA stB hrun
    obtain ⟨henc, _⟩ := m_run_liftE_ok_inv hrun
    apply preservesEnc_bind_simple
      (preservesEnc_patchLoop sys hadls parsed encoding ops parsed.cid henc)
    intro cidF
    exact preservesEnc_pure _
  exact hp st hst

def crossRoot : Cid := { code := 0x0129, digest := 0 }

def crossChild : Cid := { code := 0x71, digest := 1 }

/-- Store with a dag-json root linking to a dag-cbor child. -/
def crossStore : St :=
  { store := [(crossRoot, .map [("example".data, .link crossChild none)]),
              (crossChild, .map [("hello".data, .str "world".data)])]
    nextDigest := 100
    saveLog := [] }

def crossUrl : Str := "ipld://".data ++ cidToString crossRoot ++ "/".data

def crossOps : List PatchOp :=
  [{ op := "add".data, path := "/example/hi".data, value := .str "there".data,
     fromPath := [] }]

/-- Claim C7 witness: an `add` across the link boundary of the
mixed-codec store re-saves the dag-cbor child under dag-cbor; the run's
save log is [(crossChild, dag-cbor), (crossRoot, dag-json)] and the
theorem applied at its first entry yields the codec equation. -/
theorem patch_preserves_codecs_witness :
    getCidEncoding crossChild = Except.ok "dag-cbor".data :=
  patch_preserves_codecs sysNone crossUrl crossOps crossStore
    (fun e he => absurd he (List.not_mem_nil e))
    (fun p hp => absurd hp (List.not_mem_nil p))
    (crossChild, "dag-cbor".data)
    (by
      have h : ((patch sysNone crossUrl crossOps) crossStore).2.saveLog
          = [(crossChild, "dag-cbor".data), (crossRoot, "dag-json".data)] := rfl
      rw [h]
      exact List.mem_cons_self _ _)
